import Mathlib

/-!
# Settings search: LCS scoring and ranking

A shallow embedding of `packages/settings-view/lib/search-settings-panel.js`
(`getScore`, `lcsTraceback`, `filterSettings`, `processRanks`).

Modelling conventions.

* A JavaScript string is the list of its code units (`List α`; `List Char` for
  the schema texts).  `s[i]` is `s[i]?`: `none` stands for `undefined`.
* The matrix is a list of rows of numbers.
* A JavaScript number is a `JSNumber`: `NaN`, `Infinity`, `-Infinity`, or
  `num q` for the double nearest to the rational `q` (the two zeros are not
  told apart).  A quotient of two lengths and a constant are written with
  their exact value; `add` rounds every sum to the nearest double, ties to
  even, as IEEE 754 binary64 does.  The comparisons `gt`, `lt`, `ge` and
  `strictEq` are taken on the written values; between two doubles that is the
  comparison JavaScript makes.
* A `TypeError` (reading a property of `undefined`) is the result `none`.
* The schema is a list of entries in the order `for ... in` enumerates the
  keys; the assignments to `schema.rank` and `schema.path` are modelled by
  `RankedSchema.object` and `settingsSchemaAfter`.
-/

namespace SearchSettingsPanel

/-! ## JavaScript numbers -/

/-- The values a JavaScript number takes in this program.  `num q` stands for
the IEEE 754 double nearest to `q`: the quotient of two lengths, a constant
such as `0.2`, or a double itself. -/
inductive JSNumber where
  | nan : JSNumber
  | infinity : JSNumber
  | negInfinity : JSNumber
  | num (q : ℚ) : JSNumber
  deriving DecidableEq

namespace JSNumber

/-- JavaScript `a / b` for two non-negative integers (two `length`s). -/
def divNat (a b : Nat) : JSNumber :=
  if b = 0 then (if a = 0 then nan else infinity) else num ((a : ℚ) / (b : ℚ))

/-- The integer nearest to `n / d`, the even one of the two when `n / d` is
half way between them. -/
def roundHalfEven (n d : Nat) : Nat :=
  let m := n / d
  let r := n % d
  if 2 * r < d then m else if d < 2 * r then m + 1 else if m % 2 = 0 then m else m + 1

/-- The number of binary digits of `n`; the fuel `n` is always enough. -/
def bitLength : Nat → Nat → Nat
  | 0, _ => 0
  | fuel + 1, n => if n = 0 then 0 else bitLength fuel (n / 2) + 1

/-- The exponent `e` with `2 ^ e <= n / d < 2 ^ (e + 1)`, for positive `n`
and `d`. -/
def binaryExponent (n d : Nat) : Int :=
  let e : Int := (bitLength n n : Int) - (bitLength d d : Int)
  if d * 2 ^ e.toNat ≤ n * 2 ^ (-e).toNat then e else e - 1

/-- The IEEE 754 binary64 value nearest to the rational `q`, ties to even: 53
significant bits, least exponent -1022 (below it the spacing stays
`2 ^ -1074`), and `Infinity` or `-Infinity` from `2 ^ 1024` on. -/
def roundDouble (q : ℚ) : JSNumber :=
  if q = 0 then num 0
  else
    let n := q.num.natAbs
    let d := q.den
    let k : Int := max (binaryExponent n d) (-1022) - 52
    let m := roundHalfEven (n * 2 ^ (-k).toNat) (d * 2 ^ k.toNat)
    if 2 ^ 1024 ≤ m * 2 ^ k.toNat then (if 0 < q then infinity else negInfinity)
    else
      let v : ℚ := mkRat ((m * 2 ^ k.toNat : Nat) : Int) (2 ^ (-k).toNat)
      num (if 0 < q then v else -v)

/-- The double a number stands for. -/
def toDouble : JSNumber → JSNumber
  | num q => roundDouble q
  | x => x

/-- JavaScript `a + b` on doubles: the exact sum of the two doubles, rounded
to the nearest double, ties to even. -/
def add (a b : JSNumber) : JSNumber :=
  match toDouble a, toDouble b with
  | nan, _ => nan
  | _, nan => nan
  | infinity, negInfinity => nan
  | negInfinity, infinity => nan
  | infinity, _ => infinity
  | _, infinity => infinity
  | negInfinity, _ => negInfinity
  | _, negInfinity => negInfinity
  | num x, num y => roundDouble (x + y)

/-- JavaScript `a > b`. -/
def gt : JSNumber → JSNumber → Bool
  | num a, num b => decide (b < a)
  | infinity, num _ => true
  | infinity, negInfinity => true
  | num _, negInfinity => true
  | _, _ => false

/-- JavaScript `a < b`. -/
def lt (a b : JSNumber) : Bool := gt b a

/-- JavaScript `a === b` on numbers. -/
def strictEq : JSNumber → JSNumber → Bool
  | num a, num b => decide (a = b)
  | infinity, infinity => true
  | negInfinity, negInfinity => true
  | _, _ => false

end JSNumber

/-! ## The scorer -/

section Scorer

variable {α : Type} [DecidableEq α]

/-- The matrix read `matrix[i][j]` at a place known to exist. -/
def readCell (matrix : List (List Nat)) (i j : Nat) : Nat :=
  (matrix.getD i []).getD j 0

/-- The assignment `matrix[i][j] = v`. -/
def writeCell (matrix : List (List Nat)) (i j v : Nat) : List (List Nat) :=
  matrix.set i ((matrix.getD i []).set j v)

/-- JavaScript `x > y` where either side may be `undefined`. -/
def gtUndef : Option Nat → Option Nat → Bool
  | some a, some b => decide (b < a)
  | _, _ => false

/-- The body of the inner loop of `getScore` at `(row, col)`. -/
def fillCell (s1 s2 : List α) (matrix : List (List Nat)) (row col : Nat) : List (List Nat) :=
  if s1[row - 1]? = s2[col - 1]? then
    writeCell matrix row col (readCell matrix (row - 1) (col - 1) + 1)
  else
    writeCell matrix row col (max (readCell matrix row (col - 1)) (readCell matrix (row - 1) col))

/-- The inner loop of `getScore`: `for (let col = 1; col < width; col++)`. -/
def fillRow (s1 s2 : List α) (width : Nat) (matrix : List (List Nat)) (row : Nat) :
    List (List Nat) :=
  (List.range' 1 (width - 1)).foldl (fun m col => fillCell s1 s2 m row col) matrix

/-- The outer loop of `getScore`: `for (let row = 1; row < height; row++)`. -/
def fillMatrix (s1 s2 : List α) (height width : Nat) (matrix : List (List Nat)) :
    List (List Nat) :=
  (List.range' 1 (height - 1)).foldl (fun m row => fillRow s1 s2 width m row) matrix

/-- The method `lcsTraceback (matrix, s1, s2, height, width)`. -/
def lcsTraceback (matrix : List (List Nat)) (s1 s2 : List α) (height width : Nat) :
    Option (List α) :=
  if _h0 : height = 0 ∨ width = 0 then
    some []
  else if s1[height - 1]? = s2[width - 1]? then
    (lcsTraceback matrix s1 s2 (height - 1) (width - 1)).map
      (fun r => r ++ (match s1[height - 1]? with
        | some c => [c]
        | none => []))
  else
    match matrix[height]?, matrix[height - 1]? with
    | some rowH, some rowP =>
      if gtUndef rowH[width - 1]? rowP[width]? then
        lcsTraceback matrix s1 s2 height (width - 1)
      else
        lcsTraceback matrix s1 s2 (height - 1) width
    | _, _ => none
termination_by height + width
decreasing_by all_goals omega

/-- The calls of `lcsTraceback` that reach the comparison
`matrix[height][width - 1] > matrix[height - 1][width]`, in the order they are
made, each as its `(height, width)`.  The control flow is that of
`lcsTraceback`; a call that faults is recorded too. -/
def lcsTracebackReads (matrix : List (List Nat)) (s1 s2 : List α) (height width : Nat) :
    List (Nat × Nat) :=
  if _h0 : height = 0 ∨ width = 0 then
    []
  else if s1[height - 1]? = s2[width - 1]? then
    lcsTracebackReads matrix s1 s2 (height - 1) (width - 1)
  else
    match matrix[height]?, matrix[height - 1]? with
    | some rowH, some rowP =>
      if gtUndef rowH[width - 1]? rowP[width]? then
        (height, width) :: lcsTracebackReads matrix s1 s2 height (width - 1)
      else
        (height, width) :: lcsTracebackReads matrix s1 s2 (height - 1) width
    | _, _ => [(height, width)]
termination_by height + width
decreasing_by all_goals omega

/-- The object `getScore` returns. -/
structure Score (α : Type) where
  score : JSNumber
  sequence : List α

/-- The method `getScore (s1, s2)`. -/
def getScore (s1 s2 : List α) : Option (Score α) :=
  let height := s1.length + 1
  let width := s2.length + 1
  let matrix := List.replicate height (List.replicate width 0)
  let matrix := fillMatrix s1 s2 height width matrix
  (lcsTraceback matrix s1 s2 height width).map
    (fun longest => { score := JSNumber.divNat longest.length s1.length, sequence := longest })

/-- The local `matrix` of `getScore (s1, s2)` when its two loops have run. -/
def filledMatrix (s1 s2 : List α) : List (List Nat) :=
  fillMatrix s1 s2 (s1.length + 1) (s2.length + 1)
    (List.replicate (s1.length + 1) (List.replicate (s2.length + 1) 0))

/-! ## Proof devices for the scorer -/

/-- The recurrence the fill loop computes. -/
def lcsTable (s1 s2 : List α) : Nat → Nat → Nat
  | 0, _ => 0
  | _ + 1, 0 => 0
  | i + 1, j + 1 =>
    if s1[i]? = s2[j]? then lcsTable s1 s2 i j + 1
    else max (lcsTable s1 s2 (i + 1) j) (lcsTable s1 s2 i (j + 1))

/-- A matrix of `H + 1` rows of `W + 1` entries. -/
def WellDim (m : List (List Nat)) (H W : Nat) : Prop :=
  m.length = H + 1 ∧ ∀ row ∈ m, row.length = W + 1

/-- The loop invariant of `getScore`: the matrix keeps its shape and every
cell before `(r, c)` in row-major order, and the whole of column 0, holds the
value of the recurrence. -/
def FillInv (s1 s2 : List α) (H W r c : Nat) (m : List (List Nat)) : Prop :=
  WellDim m H W ∧ ∀ i j, i ≤ H → j ≤ W → (i < r ∨ (i = r ∧ j < c) ∨ j = 0) →
    readCell m i j = lcsTable s1 s2 i j

/-- The matrix has the shape `getScore` gave it and holds the recurrence. -/
def IsLcsMatrix (s1 s2 : List α) (m : List (List Nat)) : Prop :=
  WellDim m s1.length s2.length ∧
    ∀ i j, i ≤ s1.length → j ≤ s2.length → readCell m i j = lcsTable s1 s2 i j

end Scorer

/-! ## The ranking pass -/

/-- The four field scores stored in `schema.rank`. -/
structure FieldRanks where
  title : Score Char
  description : Score Char
  settingName : Score Char
  settingItem : Score Char

/-- The object `schema.rank` once `totalScore` is set. -/
structure Rank extends FieldRanks where
  totalScore : JSNumber

/-- The schema of a property nested inside a setting that is itself an object. -/
structure NestedSchema where
  title : Option (List Char)
  description : Option (List Char)

/-- The schema object of one setting.  `filterSettings` reads `title` and
`description` and assigns `rank` and `path`; `type` and `properties` are what
a setting that is itself an object carries (`properties` in the order
`for ... in` enumerates the keys). -/
structure ItemSchema where
  title : Option (List Char)
  description : Option (List Char)
  type : Option (List Char) := none
  properties : List (List Char × NestedSchema) := []
  rank : Option Rank := none
  path : Option (List Char) := none

/-- A top-level entry of `atom.config.schema.properties`; `properties` lists
the keys in the order `for ... in` enumerates them. -/
structure SettingSchema where
  type : Option (List Char)
  properties : List (List Char × ItemSchema)

/-- A schema with the `rank` and `path` that `filterSettings` attached. -/
structure RankedSchema where
  schema : ItemSchema
  rank : Rank
  path : List Char

/-- The schema object as the assignments `schema.rank = ...` and
`schema.path = ...` leave it: what `rankedResults` holds and what stays in
`this.settingsSchema` after the pass. -/
def RankedSchema.object (r : RankedSchema) : ItemSchema :=
  { r.schema with rank := some r.rank, path := some r.path }

/-- The arrow function `passString`: `string?.toLowerCase() ?? ""`. -/
def passString (toLowerCase : List Char → List Char) (string : Option (List Char)) :
    List Char :=
  match string with
  | some s => toLowerCase s
  | none => []

/-- JavaScript `toLowerCase` on ASCII text: the letters `A`-`Z` are folded,
every other code unit is kept. -/
def asciiToLowerCase (s : List Char) : List Char := s.map Char.toLower

/-- The local `titleBonus`. -/
def titleBonus (rank : FieldRanks) : JSNumber :=
  if JSNumber.gt rank.title.score (.num (4 / 5)) then .num (1 / 5) else .num 0

/-- The local `perfectTitleBonus`. -/
def perfectTitleBonus (rank : FieldRanks) : JSNumber :=
  if JSNumber.strictEq rank.title.score (.num 1) then .num (1 / 10) else .num 0

/-- The local `descriptionBonus`. -/
def descriptionBonus (rank : FieldRanks) : JSNumber :=
  if JSNumber.gt rank.description.score (.num (1 / 2)) then .num (1 / 10) else .num 0

/-- The local `perfectDescriptionBonus`; the source tests `rank.title.score`. -/
def perfectDescriptionBonus (rank : FieldRanks) : JSNumber :=
  if JSNumber.strictEq rank.title.score (.num 1) then .num (1 / 10) else .num 0

/-- The local `settingNameBonus`. -/
def settingNameBonus (rank : FieldRanks) : JSNumber :=
  if JSNumber.gt rank.settingName.score (.num (4 / 5)) then .num (1 / 5) else .num 0

/-- The local `perfectSettingNameBonus`; the source tests `rank.title.score`. -/
def perfectSettingNameBonus (rank : FieldRanks) : JSNumber :=
  if JSNumber.strictEq rank.title.score (.num 1) then .num (1 / 10) else .num 0

/-- The local `settingItemBonus`. -/
def settingItemBonus (rank : FieldRanks) : JSNumber :=
  if JSNumber.gt rank.settingItem.score (.num (4 / 5)) then .num (1 / 5) else .num 0

/-- The local `perfectSettingItemBonus`. -/
def perfectSettingItemBonus (rank : FieldRanks) : JSNumber :=
  if JSNumber.strictEq rank.settingItem.score (.num 1) then .num (1 / 10) else .num 0

/-- The local `totalScore`, added left to right as the source writes it. -/
def totalScore (rank : FieldRanks) : JSNumber :=
  (((((((((((rank.title.score.add (titleBonus rank)).add (perfectTitleBonus rank)).add
    rank.description.score).add (descriptionBonus rank)).add (perfectDescriptionBonus rank)).add
    rank.settingName.score).add (settingNameBonus rank)).add (perfectSettingNameBonus rank)).add
    rank.settingItem.score).add (settingItemBonus rank)).add (perfectSettingItemBonus rank))

/-- The four `getScore` calls of `filterSettings` for one `(setting, item)`. -/
def fieldRanks (toLowerCase : List Char → List Char) (text setting item : List Char)
    (schema : ItemSchema) : Option FieldRanks := do
  let rankedTitle ← getScore text (passString toLowerCase schema.title)
  let rankedDescription ← getScore text (passString toLowerCase schema.description)
  let rankedSettingName ← getScore text (passString toLowerCase (some setting))
  let rankedSettingItem ← getScore text (passString toLowerCase (some item))
  pure { title := rankedTitle, description := rankedDescription,
         settingName := rankedSettingName, settingItem := rankedSettingItem }

/-- The body of the inner loop of `filterSettings`: the schema of one
`(setting, item)` with its `rank` and `path`. -/
def rankSchema (toLowerCase : List Char → List Char) (text setting item : List Char)
    (schema : ItemSchema) : Option RankedSchema := do
  let rank ← fieldRanks toLowerCase text setting item schema
  pure { schema := schema,
         rank := { toFieldRanks := rank, totalScore := totalScore rank },
         path := setting ++ ['.'] ++ item }

/-- The two loops of `filterSettings`: the array `rankedResults` handed to
`processRanks`.  The schema objects of distinct `(setting, item)` are taken to
be distinct objects. -/
def rankedResults (toLowerCase : List Char → List Char)
    (settingsSchema : List (List Char × SettingSchema)) (text : List Char) :
    Option (List RankedSchema) :=
  settingsSchema.foldlM
    (fun acc entry =>
      if entry.2.type = some ['o', 'b', 'j', 'e', 'c', 't'] then
        entry.2.properties.foldlM
          (fun acc prop => do
            let schema ← rankSchema toLowerCase text entry.1 prop.1 prop.2
            pure (acc ++ [schema]))
          acc
      else pure acc)
    []

/-- The comparator `processRanks` passes to `sort`. -/
def compareRanks (a b : RankedSchema) : Int :=
  if JSNumber.lt a.rank.totalScore b.rank.totalScore then 1
  else if JSNumber.gt a.rank.totalScore b.rank.totalScore then -1
  else 0

/-- JavaScript `Array.prototype.sort (comparefn)` as ECMAScript 2019 specifies
it: a stable sort that puts `a` before `b` when `comparefn (a, b) <= 0`. -/
def arraySort {β : Type} (comparefn : β → β → Int) (l : List β) : List β :=
  l.insertionSort (fun a b => comparefn a b ≤ 0)

/-- The method `processRanks (ranks)`: the settings for which a
`SearchSettingView` is appended, in order.  `minScore` is the value of
`atom.config.get("settings-view.searchSettingsMinimumScore")`. -/
def processRanks (minScore : JSNumber) (ranks : List RankedSchema) : List RankedSchema :=
  let filteredRanks := ranks.filter (fun item => JSNumber.gt item.rank.totalScore minScore)
  arraySort compareRanks filteredRanks

/-- The method `filterSettings (text)`. -/
def filterSettings (toLowerCase : List Char → List Char) (minScore : JSNumber)
    (settingsSchema : List (List Char × SettingSchema)) (text : List Char) :
    Option (List RankedSchema) :=
  (rankedResults toLowerCase settingsSchema text).map (processRanks minScore)

/-- The properties of one setting group as the inner loop of `filterSettings`
leaves them: every schema object carries the `rank` and `path` assigned to it. -/
def itemsAfter (toLowerCase : List Char → List Char) (text setting : List Char) :
    List (List Char × ItemSchema) → Option (List (List Char × ItemSchema))
  | [] => some []
  | prop :: rest => do
    let schema ← rankSchema toLowerCase text setting prop.1 prop.2
    let rest ← itemsAfter toLowerCase text setting rest
    pure ((prop.1, schema.object) :: rest)

/-- The value of `this.settingsSchema` after `filterSettings (text)` has run:
the entries whose type is `object` hold the schema objects it wrote to. -/
def settingsSchemaAfter (toLowerCase : List Char → List Char) (text : List Char) :
    List (List Char × SettingSchema) → Option (List (List Char × SettingSchema))
  | [] => some []
  | entry :: rest => do
    let properties ←
      if entry.2.type = some ['o', 'b', 'j', 'e', 'c', 't'] then
        itemsAfter toLowerCase text entry.1 entry.2.properties
      else pure entry.2.properties
    let rest ← settingsSchemaAfter toLowerCase text rest
    pure ((entry.1, { entry.2 with properties := properties }) :: rest)

/-- The pairs `(setting, item)` with the schema of the item, for the top-level
entries whose type is `object`, in enumeration order. -/
def candidates (settingsSchema : List (List Char × SettingSchema)) :
    List (List Char × List Char × ItemSchema) :=
  (settingsSchema.filter (fun entry => entry.2.type = some ['o', 'b', 'j', 'e', 'c', 't'])).flatMap
    (fun entry => entry.2.properties.map (fun prop => (entry.1, prop.1, prop.2)))

/-- The ranked schema `rankSchema` returns, as a total function (a proof
device: `rankSchema` never faults). -/
def rankOf (toLowerCase : List Char → List Char) (text setting item : List Char)
    (schema : ItemSchema) : RankedSchema :=
  (rankSchema toLowerCase text setting item schema).getD
    { schema := schema,
      rank := { title := { score := .nan, sequence := [] },
                description := { score := .nan, sequence := [] },
                settingName := { score := .nan, sequence := [] },
                settingItem := { score := .nan, sequence := [] },
                totalScore := .nan },
      path := [] }

/-- The entry of `rankedResults` for a schema object that already carries the
`rank` and `path` of an earlier pass: the same object, written to again. -/
def RankedSchema.rewritten (r : RankedSchema) : RankedSchema :=
  { r with schema := r.object }

/-- JavaScript `a >= b`. -/
def JSNumber.ge : JSNumber → JSNumber → Bool
  | .num a, .num b => decide (b ≤ a)
  | .infinity, .num _ => true
  | .infinity, .infinity => true
  | .infinity, .negInfinity => true
  | .num _, .negInfinity => true
  | .negInfinity, .negInfinity => true
  | _, _ => false

/-- A number of the closed interval from 0 to 1. -/
def JSNumber.InUnitInterval : JSNumber → Prop
  | .num q => 0 ≤ q ∧ q ≤ 1
  | _ => False

/-- The total score in the order the source adds it, left to right, with each
bonus spelled out: the score of a field, its bonus, its perfect bonus, field
after field; the perfect bonuses of the title, the description and the group
name are all three keyed on the title score. -/
def orderedTotalScore (title description groupName itemName : JSNumber) : JSNumber :=
  (((((((((((title.add
    (if title.gt (.num (4 / 5)) then JSNumber.num (1 / 5) else .num 0)).add
    (if title.strictEq (.num 1) then .num (1 / 10) else .num 0)).add
    description).add
    (if description.gt (.num (1 / 2)) then .num (1 / 10) else .num 0)).add
    (if title.strictEq (.num 1) then .num (1 / 10) else .num 0)).add
    groupName).add
    (if groupName.gt (.num (4 / 5)) then .num (1 / 5) else .num 0)).add
    (if title.strictEq (.num 1) then .num (1 / 10) else .num 0)).add
    itemName).add
    (if itemName.gt (.num (4 / 5)) then .num (1 / 5) else .num 0)).add
    (if itemName.strictEq (.num 1) then .num (1 / 10) else .num 0))

/-- The total score in the order the specification words it: the sum of the
four field scores, plus the sum of the eight bonuses, the bonuses for a
perfect title, description and group name all three keyed on the title
score. -/
def summedTotalScore (title description groupName itemName : JSNumber) : JSNumber :=
  (((title.add description).add groupName).add itemName).add
    ((((((((if title.gt (.num (4 / 5)) then JSNumber.num (1 / 5) else .num 0).add
      (if title.strictEq (.num 1) then .num (1 / 10) else .num 0)).add
      (if description.gt (.num (1 / 2)) then .num (1 / 10) else .num 0)).add
      (if title.strictEq (.num 1) then .num (1 / 10) else .num 0)).add
      (if groupName.gt (.num (4 / 5)) then .num (1 / 5) else .num 0)).add
      (if title.strictEq (.num 1) then .num (1 / 10) else .num 0)).add
      (if itemName.gt (.num (4 / 5)) then .num (1 / 5) else .num 0)).add
      (if itemName.strictEq (.num 1) then .num (1 / 10) else .num 0))

/-- A ranked schema with a given path and total score, for the examples. -/
def sampleRanked (path : List Char) (totalScore : JSNumber) : RankedSchema :=
  { schema := { title := none, description := none },
    rank := { title := { score := .num 0, sequence := [] },
              description := { score := .num 0, sequence := [] },
              settingName := { score := .num 0, sequence := [] },
              settingItem := { score := .num 0, sequence := [] },
              totalScore := totalScore },
    path := path }

/-! ## Subsequences of a list extended by one element -/

theorem sublist_concat_cases {α : Type} {t l : List α} {a : α} (h : t.Sublist (l ++ [a])) :
    t.Sublist l ∨ ∃ t', t = t' ++ [a] ∧ t'.Sublist l := by
  obtain ⟨t1, t2, rfl, h1, h2⟩ := List.sublist_append_iff.mp h
  rcases List.sublist_cons_iff.mp h2 with h3 | ⟨r, rfl, h3⟩
  · rw [List.sublist_nil.mp h3, List.append_nil]
    exact Or.inl h1
  · rw [List.sublist_nil.mp h3]
    exact Or.inr ⟨t1, rfl, h1⟩

theorem length_le_succ_of_sublist_concat {α : Type} {t l1 l2 : List α} {a b : α} {k : Nat}
    (h1 : t.Sublist (l1 ++ [a])) (h2 : t.Sublist (l2 ++ [b]))
    (ih : ∀ u : List α, u.Sublist l1 → u.Sublist l2 → u.length ≤ k) :
    t.length ≤ k + 1 := by
  rcases sublist_concat_cases h1 with h1' | ⟨t', rfl, h1'⟩
  · rcases sublist_concat_cases h2 with h2' | ⟨u', rfl, h2'⟩
    · exact Nat.le_succ_of_le (ih t h1' h2')
    · have := ih u' ((List.sublist_append_left u' [b]).trans h1') h2'
      simpa using this
  · have h3 : t'.Sublist l2 := by
      rcases sublist_concat_cases h2 with h2' | ⟨u', hu, h2'⟩
      · exact (List.sublist_append_left t' [a]).trans h2'
      · rw [(List.append_inj' hu rfl).1]
        exact h2'
    have := ih t' h1' h3
    simpa using this

theorem sublist_of_concat_ne {α : Type} {t l1 l2 : List α} {a b : α} (hab : a ≠ b)
    (h1 : t.Sublist (l1 ++ [a])) (h2 : t.Sublist (l2 ++ [b])) :
    t.Sublist l1 ∨ t.Sublist l2 := by
  rcases sublist_concat_cases h1 with h1' | ⟨t', rfl, _⟩
  · exact Or.inl h1'
  · rcases sublist_concat_cases h2 with h2' | ⟨u', hu, _⟩
    · exact Or.inr h2'
    · exact absurd (List.cons.inj (List.append_inj' hu rfl).2).1 hab

/-! ## The scorer: the matrix and the traceback -/

section ScorerProofs

variable {α : Type} [DecidableEq α]

theorem lcsTable_zero_right (s1 s2 : List α) (i : Nat) : lcsTable s1 s2 i 0 = 0 := by
  cases i <;> simp [lcsTable]

theorem foldl_range'_invariant {σ : Type} (f : σ → Nat → σ) (P : Nat → σ → Prop) (n : Nat)
    (init : σ) (h0 : P 1 init)
    (hstep : ∀ k s, 1 ≤ k → k ≤ n → P k s → P (k + 1) (f s k)) :
    P (n + 1) ((List.range' 1 n).foldl f init) := by
  induction n with
  | zero => simpa using h0
  | succ n ih =>
    rw [List.range'_concat, List.foldl_append]
    simp only [List.foldl_cons, List.foldl_nil, Nat.one_mul]
    have := ih (fun k s h1 h2 hp => hstep k s h1 (by omega) hp)
    have h2 := hstep (n + 1) _ (by omega) (by omega) this
    rw [Nat.add_comm 1 n]
    exact h2

theorem wellDim_writeCell {m : List (List Nat)} {H W : Nat} (hm : WellDim m H W) (i j v : Nat) :
    WellDim (writeCell m i j v) H W := by
  obtain ⟨hl, hr⟩ := hm
  refine ⟨by simp [writeCell, hl], ?_⟩
  intro row hrow
  simp only [writeCell] at hrow
  rcases List.mem_or_eq_of_mem_set hrow with h | h
  · exact hr row h
  · subst h
    simp only [List.length_set]
    by_cases hi : i < m.length
    · rw [List.getD_eq_getElem?_getD, List.getElem?_eq_getElem hi]
      exact hr _ (List.getElem_mem hi)
    · rw [List.set_eq_of_length_le (by omega)] at hrow
      exact (List.length_set _ _ _).symm.trans (hr _ hrow)

theorem wellDim_row {m : List (List Nat)} {H W : Nat} (hm : WellDim m H W) {i : Nat}
    (hi : i ≤ H) : ∃ row, m[i]? = some row ∧ row.length = W + 1 := by
  obtain ⟨hl, hr⟩ := hm
  have hlt : i < m.length := by omega
  exact ⟨m[i], List.getElem?_eq_getElem hlt, hr _ (List.getElem_mem hlt)⟩

theorem wellDim_cell {m : List (List Nat)} {H W : Nat} (hm : WellDim m H W) {i j : Nat}
    (hi : i ≤ H) (hj : j ≤ W) :
    ∃ row, m[i]? = some row ∧ row[j]? = some (readCell m i j) := by
  obtain ⟨row, hrow, hlen⟩ := wellDim_row hm hi
  refine ⟨row, hrow, ?_⟩
  have hlt : j < row.length := by omega
  simp [readCell, List.getD_eq_getElem?_getD, hrow, List.getElem?_eq_getElem hlt]

theorem readCell_writeCell {m : List (List Nat)} {H W : Nat} (hm : WellDim m H W) {i j : Nat}
    (hi : i ≤ H) (hj : j ≤ W) (v i' j' : Nat) :
    readCell (writeCell m i j v) i' j' = if i' = i ∧ j' = j then v else readCell m i' j' := by
  obtain ⟨row, hrow, hlen⟩ := wellDim_row hm hi
  have hil : i < m.length := by have := hm.1; omega
  have hjl : j < row.length := by omega
  simp only [readCell, writeCell, List.getD_eq_getElem?_getD, List.getElem?_set, hrow,
    Option.getD_some]
  by_cases h1 : i = i'
  · subst h1
    simp only [hil, if_true, Option.getD_some, List.getElem?_set, true_and, hrow]
    by_cases h2 : j = j'
    · subst h2
      simp [hjl]
    · have h2' : ¬ j' = j := fun h => h2 h.symm
      simp [h2, h2']
  · have h1' : ¬ i' = i := fun h => h1 h.symm
    simp [h1, h1']

variable (s1 s2 : List α)

theorem fillInv_fillCell {H W r c : Nat} {m : List (List Nat)} (hr1 : 1 ≤ r) (hrH : r ≤ H)
    (hc1 : 1 ≤ c) (hcW : c ≤ W) (h : FillInv s1 s2 H W r c m) :
    FillInv s1 s2 H W r (c + 1) (fillCell s1 s2 m r c) := by
  obtain ⟨hd, hcells⟩ := h
  obtain ⟨r', rfl⟩ : ∃ r', r = r' + 1 := ⟨r - 1, by omega⟩
  obtain ⟨c', rfl⟩ : ∃ c', c = c' + 1 := ⟨c - 1, by omega⟩
  have hdiag := hcells r' c' (by omega) (by omega) (Or.inl (by omega))
  have hleft := hcells (r' + 1) c' (by omega) (by omega) (Or.inr (Or.inl ⟨rfl, by omega⟩))
  have hup := hcells r' (c' + 1) (by omega) (by omega) (Or.inl (by omega))
  have hnew : ∀ i j, readCell (fillCell s1 s2 m (r' + 1) (c' + 1)) i j
      = if i = r' + 1 ∧ j = c' + 1 then lcsTable s1 s2 (r' + 1) (c' + 1) else readCell m i j := by
    intro i j
    unfold fillCell
    simp only [Nat.add_sub_cancel]
    split_ifs with h1 h2 h2
    · rw [readCell_writeCell hd hrH hcW, if_pos h2, hdiag, lcsTable, if_pos h1]
    · rw [readCell_writeCell hd hrH hcW, if_neg h2]
    · rw [readCell_writeCell hd hrH hcW, if_pos h2, hleft, hup, lcsTable, if_neg h1]
    · rw [readCell_writeCell hd hrH hcW, if_neg h2]
  refine ⟨?_, ?_⟩
  · unfold fillCell
    split_ifs <;> exact wellDim_writeCell hd _ _ _
  · intro i j hi hj hij
    rw [hnew]
    split_ifs with h1
    · rw [h1.1, h1.2]
    · apply hcells i j hi hj
      rcases hij with h | ⟨h, h'⟩ | h
      · exact Or.inl h
      · refine Or.inr (Or.inl ⟨h, ?_⟩)
        by_contra hcon
        exact h1 ⟨h, by omega⟩
      · exact Or.inr (Or.inr h)

theorem fillInv_fillRow {H W r : Nat} {m : List (List Nat)} (hr1 : 1 ≤ r) (hrH : r ≤ H)
    (h : FillInv s1 s2 H W r 1 m) :
    FillInv s1 s2 H W (r + 1) 1 (fillRow s1 s2 (W + 1) m r) := by
  have key : FillInv s1 s2 H W r (W + 1) (fillRow s1 s2 (W + 1) m r) := by
    unfold fillRow
    simp only [Nat.add_sub_cancel]
    exact foldl_range'_invariant (fun m col => fillCell s1 s2 m r col)
      (fun c m => FillInv s1 s2 H W r c m) W m h
      (fun k s hk1 hkW hs => fillInv_fillCell s1 s2 hr1 hrH hk1 hkW hs)
  obtain ⟨hd, hcells⟩ := key
  refine ⟨hd, fun i j hi hj hij => hcells i j hi hj ?_⟩
  rcases hij with h | ⟨_, h⟩ | h
  · by_cases hir : i < r
    · exact Or.inl hir
    · exact Or.inr (Or.inl ⟨by omega, by omega⟩)
  · exact Or.inr (Or.inr (by omega))
  · exact Or.inr (Or.inr h)

theorem wellDim_replicate (H W : Nat) :
    WellDim (List.replicate (H + 1) (List.replicate (W + 1) 0)) H W := by
  refine ⟨by simp, ?_⟩
  intro row hrow
  rw [List.eq_of_mem_replicate hrow]
  simp

theorem readCell_replicate (H W i j : Nat) :
    readCell (List.replicate (H + 1) (List.replicate (W + 1) 0)) i j = 0 := by
  by_cases h1 : i < H + 1 <;> by_cases h2 : j < W + 1 <;>
    simp [readCell, List.getD_eq_getElem?_getD, List.getElem?_replicate, h1, h2]

/-- After the two loops of `getScore` the matrix holds the recurrence. -/
theorem fillMatrix_spec :
    FillInv s1 s2 s1.length s2.length (s1.length + 1) 1
      (fillMatrix s1 s2 (s1.length + 1) (s2.length + 1)
        (List.replicate (s1.length + 1) (List.replicate (s2.length + 1) 0))) := by
  unfold fillMatrix
  simp only [Nat.add_sub_cancel]
  refine foldl_range'_invariant (fun m row => fillRow s1 s2 (s2.length + 1) m row)
    (fun r m => FillInv s1 s2 s1.length s2.length r 1 m) s1.length _ ?_
    (fun k s hk1 hkH hs => fillInv_fillRow s1 s2 hk1 hkH hs)
  refine ⟨wellDim_replicate _ _, ?_⟩
  intro i j _ _ hij
  rw [readCell_replicate]
  rcases hij with h | ⟨_, h⟩ | h
  · obtain rfl : i = 0 := by omega
    simp [lcsTable]
  · obtain rfl : j = 0 := by omega
    rw [lcsTable_zero_right]
  · subst h
    rw [lcsTable_zero_right]


theorem lcsTable_zero_left (j : Nat) : lcsTable s1 s2 0 j = 0 := by
  simp [lcsTable]

theorem isLcsMatrix_fillMatrix :
    IsLcsMatrix s1 s2 (fillMatrix s1 s2 (s1.length + 1) (s2.length + 1)
        (List.replicate (s1.length + 1) (List.replicate (s2.length + 1) 0))) := by
  obtain ⟨hd, hcells⟩ := fillMatrix_spec s1 s2
  exact ⟨hd, fun i j hi hj => hcells i j hi hj (Or.inl (by omega))⟩

theorem lcsTraceback_spec {m : List (List Nat)} (hm : IsLcsMatrix s1 s2 m) :
    ∀ n h w, h + w = n → h ≤ s1.length → w ≤ s2.length →
      ∃ r, lcsTraceback m s1 s2 h w = some r ∧ r.Sublist (s1.take h) ∧ r.Sublist (s2.take w) ∧
        r.length = lcsTable s1 s2 h w := by
  intro n
  induction n using Nat.strong_induction_on with
  | _ n ih =>
    intro h w hn hh hw
    rw [lcsTraceback]
    by_cases h0 : h = 0 ∨ w = 0
    · rw [dif_pos h0]
      refine ⟨[], rfl, List.nil_sublist _, List.nil_sublist _, ?_⟩
      rcases h0 with rfl | rfl
      · rw [lcsTable_zero_left]; rfl
      · rw [lcsTable_zero_right]; rfl
    · rw [dif_neg h0]
      obtain ⟨h', rfl⟩ : ∃ h', h = h' + 1 := ⟨h - 1, by omega⟩
      obtain ⟨w', rfl⟩ : ∃ w', w = w' + 1 := ⟨w - 1, by omega⟩
      simp only [Nat.add_sub_cancel]
      have ha : s1[h']? = some s1[h'] := List.getElem?_eq_getElem (by omega)
      have hb : s2[w']? = some s2[w'] := List.getElem?_eq_getElem (by omega)
      have t1 : s1.take (h' + 1) = s1.take h' ++ [s1[h']] := by
        rw [List.take_succ, ha]; rfl
      have t2 : s2.take (w' + 1) = s2.take w' ++ [s2[w']] := by
        rw [List.take_succ, hb]; rfl
      by_cases heq : s1[h']? = s2[w']?
      · rw [if_pos heq]
        obtain ⟨r, hr, hr1, hr2, hlen⟩ := ih (h' + w') (by omega) h' w' rfl (by omega) (by omega)
        refine ⟨r ++ [s1[h']], ?_, ?_, ?_, ?_⟩
        · rw [hr, ha]; rfl
        · rw [t1]
          exact List.Sublist.append hr1 (List.Sublist.refl _)
        · have hab : s1[h'] = s2[w'] := by
            rw [ha, hb] at heq
            exact Option.some.inj heq
          rw [t2, hab]
          exact List.Sublist.append hr2 (List.Sublist.refl _)
        · rw [lcsTable, if_pos heq, List.length_append, hlen]; rfl
      · rw [if_neg heq]
        obtain ⟨rowH, hrowH, hcellH⟩ := wellDim_cell hm.1 (i := h' + 1) (j := w') hh (by omega)
        obtain ⟨rowP, hrowP, hcellP⟩ := wellDim_cell hm.1 (i := h') (j := w' + 1) (by omega) hw
        rw [hrowH, hrowP]
        simp only [hcellH, hcellP, gtUndef]
        rw [hm.2 _ _ hh (by omega), hm.2 _ _ (by omega) hw]
        by_cases hgt : lcsTable s1 s2 h' (w' + 1) < lcsTable s1 s2 (h' + 1) w'
        · rw [if_pos (by simpa using hgt)]
          obtain ⟨r, hr, hr1, hr2, hlen⟩ :=
            ih (h' + 1 + w') (by omega) (h' + 1) w' rfl hh (by omega)
          refine ⟨r, hr, hr1, ?_, ?_⟩
          · rw [t2]
            exact hr2.trans (List.sublist_append_left _ _)
          · rw [hlen, lcsTable.eq_3, if_neg heq]
            omega
        · rw [if_neg (by simpa using hgt)]
          obtain ⟨r, hr, hr1, hr2, hlen⟩ :=
            ih (h' + (w' + 1)) (by omega) h' (w' + 1) rfl (by omega) hw
          refine ⟨r, hr, ?_, hr2, ?_⟩
          · rw [t1]
            exact hr1.trans (List.sublist_append_left _ _)
          · rw [hlen, lcsTable.eq_3, if_neg heq]
            omega


/-- No common subsequence of two prefixes is longer than the recurrence says. -/
theorem lcsTable_upper_bound :
    ∀ (h w : Nat) (t : List α), t.Sublist (s1.take h) → t.Sublist (s2.take w) →
      t.length ≤ lcsTable s1 s2 h w := by
  intro h
  induction h with
  | zero =>
    intro w t ht _
    rw [List.take_zero] at ht
    rw [List.sublist_nil.mp ht]
    exact Nat.zero_le _
  | succ h ihh =>
    intro w
    induction w with
    | zero =>
      intro t _ ht
      rw [List.take_zero] at ht
      rw [List.sublist_nil.mp ht]
      exact Nat.zero_le _
    | succ w ihw =>
      intro t ht1 ht2
      rw [lcsTable.eq_3]
      rw [List.take_succ] at ht1 ht2
      cases ha : s1[h]? with
      | none =>
        rw [ha, Option.toList, List.append_nil] at ht1
        have hup := ihh (w + 1) t ht1 (by rw [List.take_succ]; exact ht2)
        split_ifs
        · cases hb : s2[w]? with
          | none =>
            rw [hb, Option.toList, List.append_nil] at ht2
            exact Nat.le_succ_of_le (ihh w t ht1 ht2)
          | some b =>
            rw [hb] at ht2
            rcases sublist_concat_cases ht2 with h2 | ⟨t', rfl, h2⟩
            · exact Nat.le_succ_of_le (ihh w t ht1 h2)
            · have := ihh w t' ((List.sublist_append_left t' [b]).trans ht1) h2
              simpa using this
        · exact le_trans hup (le_max_right _ _)
      | some a =>
        rw [ha] at ht1
        cases hb : s2[w]? with
        | none =>
          rw [hb, Option.toList, List.append_nil] at ht2
          have hleft := ihw t (by rw [List.take_succ, ha]; exact ht1) ht2
          rw [if_neg (by simp)]
          exact le_trans hleft (le_max_left _ _)
        | some b =>
          rw [hb] at ht2
          by_cases hab : a = b
          · rw [if_pos (by rw [hab])]
            exact length_le_succ_of_sublist_concat ht1 ht2 (ihh w)
          · rw [if_neg (by simpa using hab)]
            rcases sublist_of_concat_ne hab ht1 ht2 with h' | h'
            · exact le_trans (ihh (w + 1) t h' (by rw [List.take_succ, hb]; exact ht2))
                (le_max_right _ _)
            · exact le_trans (ihw t (by rw [List.take_succ, ha]; exact ht1) h')
                (le_max_left _ _)

/-- What `getScore` returns: it does not fault, and its sequence is a common
subsequence whose length is the value of the recurrence at the two lengths. -/
theorem getScore_spec :
    ∃ r : List α, getScore s1 s2
        = some { score := JSNumber.divNat r.length s1.length, sequence := r } ∧
      r.Sublist s1 ∧ r.Sublist s2 ∧ r.length = lcsTable s1 s2 s1.length s2.length := by
  have hm := isLcsMatrix_fillMatrix s1 s2
  obtain ⟨r, hr, hr1, hr2, hlen⟩ :=
    lcsTraceback_spec s1 s2 hm _ s1.length s2.length rfl (le_refl _) (le_refl _)
  refine ⟨r, ?_, ?_, ?_, hlen⟩
  · unfold getScore
    simp only []
    rw [lcsTraceback, dif_neg (by omega)]
    simp only [Nat.add_sub_cancel]
    have h1 : s1[s1.length]? = none := List.getElem?_eq_none (le_refl _)
    have h2 : s2[s2.length]? = none := List.getElem?_eq_none (le_refl _)
    rw [h1, h2, if_pos rfl, hr]
    simp
  · simpa using hr1
  · simpa using hr2

/-! ## The scorer: the claims -/

/-- The score of a non-empty reference is the quotient of the two lengths. -/
theorem divNat_of_ne_zero (a : Nat) {b : Nat} (hb : b ≠ 0) :
    JSNumber.divNat a b = .num ((a : ℚ) / (b : ℚ)) := by
  simp [JSNumber.divNat, hb]

/-- A reference that is a subsequence of the query is returned whole, with
score 1. -/
theorem getScore_of_sublist (s1 s2 : List α) (hne : s1 ≠ []) (hsub : s1.Sublist s2) :
    getScore s1 s2 = some { score := .num 1, sequence := s1 } := by
  obtain ⟨r, hr, hr1, _, hlen⟩ := getScore_spec s1 s2
  have hub := lcsTable_upper_bound s1 s2 s1.length s2.length s1 (by simp) (by simpa using hsub)
  have hrs : r = s1 := hr1.eq_of_length_le (by omega)
  have hlen0 : s1.length ≠ 0 := fun h => hne (List.length_eq_zero.mp h)
  have hq : ((s1.length : ℚ)) ≠ 0 := by exact_mod_cast hlen0
  rw [hr, hrs, divNat_of_ne_zero _ hlen0, div_self hq]

/-- C1: for every pair of strings, `getScore` returns, and the sequence it
returns can be obtained from `s1` and also from `s2` by deleting characters,
keeping order. -/
theorem getScore_sequence_common_subsequence (s1 s2 : List α) :
    ∃ r, getScore s1 s2 = some r ∧ r.sequence.Sublist s1 ∧ r.sequence.Sublist s2 := by
  obtain ⟨r, hr, hr1, hr2, _⟩ := getScore_spec s1 s2
  exact ⟨_, hr, hr1, hr2⟩

/-- C2: for a non-empty reference `s1`, `getScore` returns the score
`L / length s1`, where `L` is the length of the returned sequence, a common
subsequence of `s1` and `s2` that no common subsequence exceeds in length. -/
theorem getScore_score_longest (s1 s2 : List α) (hne : s1 ≠ []) :
    ∃ r, getScore s1 s2 = some r ∧
      r.score = .num ((r.sequence.length : ℚ) / (s1.length : ℚ)) ∧
      r.sequence.Sublist s1 ∧ r.sequence.Sublist s2 ∧
      ∀ t : List α, t.Sublist s1 → t.Sublist s2 → t.length ≤ r.sequence.length := by
  obtain ⟨r, hr, hr1, hr2, hlen⟩ := getScore_spec s1 s2
  have hlen0 : s1.length ≠ 0 := fun h => hne (List.length_eq_zero.mp h)
  refine ⟨_, hr, divNat_of_ne_zero _ hlen0, hr1, hr2, ?_⟩
  intro t ht1 ht2
  show t.length ≤ r.length
  rw [hlen]
  exact lcsTable_upper_bound s1 s2 _ _ t (by simpa using ht1) (by simpa using ht2)

/-- Witness of C2 at reference `ab` and query `ba`. -/
theorem getScore_score_longest_witness :
    (['a', 'b'] : List Char) ≠ [] ∧
    ∃ r, getScore ['a', 'b'] ['b', 'a'] = some r ∧
      r.score = .num ((r.sequence.length : ℚ) / ((['a', 'b'] : List Char).length : ℚ)) ∧
      r.sequence.Sublist ['a', 'b'] ∧ r.sequence.Sublist ['b', 'a'] ∧
      ∀ t : List Char, t.Sublist ['a', 'b'] → t.Sublist ['b', 'a'] →
        t.length ≤ r.sequence.length :=
  ⟨by simp, getScore_score_longest ['a', 'b'] ['b', 'a'] (by simp)⟩

/-- C4: an empty reference makes `getScore` divide 0 by 0: the score it
returns is `NaN`, which is not the number 0. -/
theorem getScore_empty_reference (q : List α) :
    getScore ([] : List α) q = some { score := .nan, sequence := [] } ∧
      JSNumber.strictEq .nan (.num 0) = false := by
  obtain ⟨r, hr, hr1, _, _⟩ := getScore_spec ([] : List α) q
  have hr0 : r = [] := List.sublist_nil.mp hr1
  subst hr0
  exact ⟨by rw [hr]; rfl, rfl⟩

/-- C5: with the empty reference and the query `view` the score `getScore`
returns is outside the closed interval from 0 to 1. -/
theorem getScore_empty_reference_not_in_unit_interval :
    ∃ r, getScore ([] : List Char) ['v', 'i', 'e', 'w'] = some r ∧
      ¬ r.score.InUnitInterval := by
  obtain ⟨r, hr, hr1, _, _⟩ := getScore_spec ([] : List Char) ['v', 'i', 'e', 'w']
  have hr0 : r = [] := List.sublist_nil.mp hr1
  subst hr0
  exact ⟨_, hr, fun h => h⟩

/-- The score of a non-empty reference lies in the closed interval from 0 to 1. -/
theorem getScore_score_in_unit_interval (s1 s2 : List α) (hne : s1 ≠ []) :
    ∃ r, getScore s1 s2 = some r ∧ r.score.InUnitInterval := by
  obtain ⟨r, hr, hr1, _, _⟩ := getScore_spec s1 s2
  have hlen0 : s1.length ≠ 0 := fun h => hne (List.length_eq_zero.mp h)
  refine ⟨_, hr, ?_⟩
  show (JSNumber.divNat r.length s1.length).InUnitInterval
  rw [divNat_of_ne_zero _ hlen0]
  have hpos : (0 : ℚ) < (s1.length : ℚ) := by exact_mod_cast Nat.pos_of_ne_zero hlen0
  have hle : (r.length : ℚ) ≤ (s1.length : ℚ) := by exact_mod_cast hr1.length_le
  exact ⟨by positivity, (div_le_one hpos).mpr hle⟩

end ScorerProofs

/-! ## The ranking pass: the claims -/

/-- The four scores of one `(setting, item)` are `getScore` applied to the
typed text first and to the lowercased field text second; none faults. -/
theorem fieldRanks_spec (toLowerCase : List Char → List Char) (text setting item : List Char)
    (schema : ItemSchema) :
    ∃ rank, fieldRanks toLowerCase text setting item schema = some rank ∧
      getScore text (passString toLowerCase schema.title) = some rank.title ∧
      getScore text (passString toLowerCase schema.description) = some rank.description ∧
      getScore text (passString toLowerCase (some setting)) = some rank.settingName ∧
      getScore text (passString toLowerCase (some item)) = some rank.settingItem := by
  obtain ⟨r1, h1, -⟩ := getScore_spec text (passString toLowerCase schema.title)
  obtain ⟨r2, h2, -⟩ := getScore_spec text (passString toLowerCase schema.description)
  obtain ⟨r3, h3, -⟩ := getScore_spec text (passString toLowerCase (some setting))
  obtain ⟨r4, h4, -⟩ := getScore_spec text (passString toLowerCase (some item))
  refine ⟨⟨_, _, _, _⟩, ?_, h1, h2, h3, h4⟩
  simp [fieldRanks, h1, h2, h3, h4]

theorem rankSchema_spec (toLowerCase : List Char → List Char) (text setting item : List Char)
    (schema : ItemSchema) :
    ∃ rank, fieldRanks toLowerCase text setting item schema = some rank ∧
      rankSchema toLowerCase text setting item schema
        = some { schema := schema,
                 rank := { toFieldRanks := rank, totalScore := totalScore rank },
                 path := setting ++ ['.'] ++ item } := by
  obtain ⟨rank, hrank, -⟩ := fieldRanks_spec toLowerCase text setting item schema
  exact ⟨rank, hrank, by simp [rankSchema, hrank]⟩

theorem foldlM_option_invariant {β γ : Type} (f : γ → β → Option γ) (P : γ → Prop)
    (l : List β) (init : γ) (h0 : P init)
    (hstep : ∀ acc b, b ∈ l → P acc → ∃ acc', f acc b = some acc' ∧ P acc') :
    ∃ res, l.foldlM f init = some res ∧ P res := by
  induction l generalizing init with
  | nil => exact ⟨init, rfl, h0⟩
  | cons b l ih =>
    obtain ⟨acc', hacc, hP⟩ := hstep init b (List.mem_cons_self _ _) h0
    obtain ⟨res, hres, hPres⟩ :=
      ih acc' hP (fun acc b' hb' hp => hstep acc b' (List.mem_cons_of_mem _ hb') hp)
    exact ⟨res, by simp [List.foldlM_cons, hacc, hres], hPres⟩

/-- Every entry of `rankedResults` is the `rankSchema` of some
`(setting, item)` of the schema. -/
theorem rankedResults_spec (toLowerCase : List Char → List Char)
    (settingsSchema : List (List Char × SettingSchema)) (text : List Char) :
    ∃ rs, rankedResults toLowerCase settingsSchema text = some rs ∧
      ∀ r ∈ rs, ∃ setting item schema,
        rankSchema toLowerCase text setting item schema = some r := by
  unfold rankedResults
  refine foldlM_option_invariant _
    (fun acc => ∀ r ∈ acc, ∃ setting item schema,
      rankSchema toLowerCase text setting item schema = some r) _ _ (by simp) ?_
  intro acc entry _ hacc
  dsimp only
  split_ifs
  · refine foldlM_option_invariant _
      (fun acc => ∀ r ∈ acc, ∃ setting item schema,
        rankSchema toLowerCase text setting item schema = some r) _ _ hacc ?_
    intro acc' prop _ hacc'
    obtain ⟨rank, _, hrs⟩ := rankSchema_spec toLowerCase text entry.1 prop.1 prop.2
    refine ⟨_, by rw [hrs]; rfl, ?_⟩
    intro r hr
    rcases List.mem_append.mp hr with h | h
    · exact hacc' r h
    · rw [List.mem_singleton.mp h]
      exact ⟨_, _, _, hrs⟩
  · exact ⟨acc, rfl, hacc⟩

/-- C3: for every non-empty string `s`, `getScore (s, s)` has score 1 and
sequence `s`; with the title `Invisibles` and the typed text `invisibles` the
title score is 1, `titleBonus` is 0.2 and `perfectTitleBonus` is 0.1. -/
theorem getScore_self {α : Type} [DecidableEq α] (s : List α) (hs : s ≠ []) :
    getScore s s = some { score := .num 1, sequence := s } ∧
    ∀ (setting item : List Char) (description : Option (List Char)),
      ∃ rank, fieldRanks asciiToLowerCase ['i', 'n', 'v', 'i', 's', 'i', 'b', 'l', 'e', 's']
          setting item
          { title := some ['I', 'n', 'v', 'i', 's', 'i', 'b', 'l', 'e', 's'],
            description := description } = some rank ∧
        rank.title.score = .num 1 ∧ titleBonus rank = .num (1 / 5) ∧
        perfectTitleBonus rank = .num (1 / 10) := by
  refine ⟨getScore_of_sublist s s hs (List.Sublist.refl s), ?_⟩
  intro setting item description
  obtain ⟨rank, hrank, htitle, -⟩ := fieldRanks_spec asciiToLowerCase
    ['i', 'n', 'v', 'i', 's', 'i', 'b', 'l', 'e', 's'] setting item
    { title := some ['I', 'n', 'v', 'i', 's', 'i', 'b', 'l', 'e', 's'],
      description := description }
  have hlow : passString asciiToLowerCase (some ['I', 'n', 'v', 'i', 's', 'i', 'b', 'l', 'e', 's'])
      = ['i', 'n', 'v', 'i', 's', 'i', 'b', 'l', 'e', 's'] := by decide
  rw [hlow, getScore_of_sublist _ _ (by simp) (List.Sublist.refl _)] at htitle
  have hscore : rank.title.score = .num 1 := by
    rw [← Option.some.inj htitle]
  refine ⟨rank, hrank, hscore, ?_, ?_⟩
  · simp only [titleBonus, hscore, JSNumber.gt]
    norm_num
  · simp only [perfectTitleBonus, hscore, JSNumber.strictEq]
    norm_num

/-- Witness of C3 at the string `invisibles`. -/
theorem getScore_self_witness :
    (['i', 'n', 'v', 'i', 's', 'i', 'b', 'l', 'e', 's'] : List Char) ≠ [] ∧
    getScore ['i', 'n', 'v', 'i', 's', 'i', 'b', 'l', 'e', 's']
        ['i', 'n', 'v', 'i', 's', 'i', 'b', 'l', 'e', 's']
      = some { score := .num 1, sequence := ['i', 'n', 'v', 'i', 's', 'i', 'b', 'l', 'e', 's'] } :=
  ⟨by simp, (getScore_self ['i', 'n', 'v', 'i', 's', 'i', 'b', 'l', 'e', 's'] (by simp)).1⟩

/-- C6: `filterSettings` gives `getScore` the typed text as the reference and
the field text as the second argument: with the title `settings-view` and the
typed text `view` the title score is 1, not 4/13. -/
theorem fieldRanks_title_score_settings_view (setting item : List Char)
    (description : Option (List Char)) :
    ∃ rank, fieldRanks asciiToLowerCase ['v', 'i', 'e', 'w'] setting item
        { title := some ['s', 'e', 't', 't', 'i', 'n', 'g', 's', '-', 'v', 'i', 'e', 'w'],
          description := description } = some rank ∧
      rank.title = { score := .num 1, sequence := ['v', 'i', 'e', 'w'] } ∧
      rank.title.score ≠ JSNumber.divNat 4 13 := by
  obtain ⟨rank, hrank, htitle, -⟩ := fieldRanks_spec asciiToLowerCase ['v', 'i', 'e', 'w']
    setting item
    { title := some ['s', 'e', 't', 't', 'i', 'n', 'g', 's', '-', 'v', 'i', 'e', 'w'],
      description := description }
  have hlow : passString asciiToLowerCase
      (some ['s', 'e', 't', 't', 'i', 'n', 'g', 's', '-', 'v', 'i', 'e', 'w'])
      = ['s', 'e', 't', 't', 'i', 'n', 'g', 's', '-', 'v', 'i', 'e', 'w'] := by decide
  rw [hlow, getScore_of_sublist _ _ (by simp) (by decide)] at htitle
  have ht : rank.title = { score := .num 1, sequence := ['v', 'i', 'e', 'w'] } :=
    (Option.some.inj htitle).symm
  refine ⟨rank, hrank, ht, ?_⟩
  rw [ht]
  simp only [JSNumber.divNat]
  norm_num

/-! ## Filtering and sorting -/

theorem JSNumber.ne_nan_of_gt {a b : JSNumber} (h : a.gt b = true) : a ≠ .nan := by
  cases a <;> simp_all [JSNumber.gt]

theorem JSNumber.ge_trans {a b c : JSNumber} (hab : a.ge b = true) (hbc : b.ge c = true) :
    a.ge c = true := by
  cases a <;> cases b <;> cases c <;> simp_all [JSNumber.ge]
  exact le_trans hbc hab

theorem JSNumber.ge_of_not_lt {a b : JSNumber} (ha : a ≠ .nan) (hb : b ≠ .nan)
    (h : a.lt b = false) : a.ge b = true := by
  cases a <;> cases b <;> simp_all [JSNumber.ge, JSNumber.lt, JSNumber.gt]

theorem JSNumber.ge_of_lt {a b : JSNumber} (h : a.lt b = true) : b.ge a = true := by
  cases a <;> cases b <;> simp_all [JSNumber.ge, JSNumber.lt, JSNumber.gt]
  exact le_of_lt h

theorem compareRanks_le_zero_iff (a b : RankedSchema) :
    compareRanks a b ≤ 0 ↔ JSNumber.lt a.rank.totalScore b.rank.totalScore = false := by
  unfold compareRanks
  split_ifs with h1 h2 <;> simp [h1]

theorem compareRanks_le_zero_of_eq {a b : RankedSchema}
    (h : a.rank.totalScore = b.rank.totalScore) : compareRanks a b ≤ 0 := by
  rw [compareRanks_le_zero_iff, h]
  cases b.rank.totalScore <;> simp [JSNumber.lt, JSNumber.gt]

theorem pairwise_orderedInsert_compareRanks (a : RankedSchema) (l : List RankedSchema)
    (ha : a.rank.totalScore ≠ .nan) (hl : ∀ x ∈ l, x.rank.totalScore ≠ .nan)
    (hs : l.Pairwise (fun x y => JSNumber.ge x.rank.totalScore y.rank.totalScore = true)) :
    (l.orderedInsert (fun a b => compareRanks a b ≤ 0) a).Pairwise
      (fun x y => JSNumber.ge x.rank.totalScore y.rank.totalScore = true) := by
  induction l with
  | nil => simp
  | cons b l ih =>
    have hb := hl b (List.mem_cons_self _ _)
    obtain ⟨hbl, hsl⟩ := List.pairwise_cons.mp hs
    rw [List.orderedInsert]
    split_ifs with hab
    · have hge : JSNumber.ge a.rank.totalScore b.rank.totalScore = true :=
        JSNumber.ge_of_not_lt ha hb ((compareRanks_le_zero_iff a b).mp hab)
      refine List.pairwise_cons.mpr ⟨?_, hs⟩
      intro c hc
      rcases List.mem_cons.mp hc with rfl | hc
      · exact hge
      · exact JSNumber.ge_trans hge (hbl c hc)
    · have hlt : JSNumber.lt a.rank.totalScore b.rank.totalScore = true := by
        have := (compareRanks_le_zero_iff a b).not.mp hab
        simpa using this
      refine List.pairwise_cons.mpr ⟨?_, ih (fun x hx => hl x (List.mem_cons_of_mem _ hx)) hsl⟩
      intro c hc
      rcases (List.mem_orderedInsert _).mp hc with rfl | hc
      · exact JSNumber.ge_of_lt hlt
      · exact hbl c hc

theorem pairwise_arraySort_compareRanks (l : List RankedSchema)
    (hl : ∀ x ∈ l, x.rank.totalScore ≠ .nan) :
    (arraySort compareRanks l).Pairwise
      (fun x y => JSNumber.ge x.rank.totalScore y.rank.totalScore = true) := by
  unfold arraySort
  induction l with
  | nil => simp
  | cons a l ih =>
    rw [List.insertionSort]
    refine pairwise_orderedInsert_compareRanks a _ (hl a (List.mem_cons_self _ _)) ?_
      (ih (fun x hx => hl x (List.mem_cons_of_mem _ hx)))
    intro x hx
    exact hl x (List.mem_cons_of_mem _ ((List.mem_insertionSort _).mp hx))

theorem processRanks_perm (minScore : JSNumber) (ranks : List RankedSchema) :
    (processRanks minScore ranks).Perm
      (ranks.filter (fun item => JSNumber.gt item.rank.totalScore minScore)) :=
  List.perm_insertionSort _ _

/-- C8: a candidate is in the list `processRanks` renders exactly when it is
in the input with a `totalScore` strictly greater than `minScore`, and as many
are rendered as pass the test; with `minScore` 1.5 a total of 1.4 is left out
and a total of 1.6 is kept. -/
theorem processRanks_mem_iff (minScore : JSNumber) (ranks : List RankedSchema)
    (x : RankedSchema) (p q : List Char) :
    (x ∈ processRanks minScore ranks ↔
      x ∈ ranks ∧ JSNumber.gt x.rank.totalScore minScore = true) ∧
    (processRanks minScore ranks).length
      = (ranks.filter (fun item => JSNumber.gt item.rank.totalScore minScore)).length ∧
    processRanks (.num (3 / 2)) [sampleRanked p (.num (7 / 5)), sampleRanked q (.num (8 / 5))]
      = [sampleRanked q (.num (8 / 5))] := by
  refine ⟨?_, (processRanks_perm minScore ranks).length_eq, ?_⟩
  · rw [(processRanks_perm minScore ranks).mem_iff, List.mem_filter]
  · have h1 : JSNumber.gt (.num (7 / 5)) (.num (3 / 2)) = false := by
      simp only [JSNumber.gt]; norm_num
    have h2 : JSNumber.gt (.num (8 / 5)) (.num (3 / 2)) = true := by
      simp only [JSNumber.gt]; norm_num
    simp [processRanks, arraySort, sampleRanked, h1, h2]

/-- C9: the list `processRanks` renders is a permutation of the candidates
that passed the filter, and each entry has a `totalScore` greater than or
equal to that of the entry after it. -/
theorem processRanks_perm_sorted (minScore : JSNumber) (ranks : List RankedSchema) :
    (processRanks minScore ranks).Perm
      (ranks.filter (fun item => JSNumber.gt item.rank.totalScore minScore)) ∧
    (processRanks minScore ranks).Chain'
      (fun x y => JSNumber.ge x.rank.totalScore y.rank.totalScore = true) := by
  refine ⟨processRanks_perm minScore ranks, List.Pairwise.chain' ?_⟩
  apply pairwise_arraySort_compareRanks
  intro x hx
  exact JSNumber.ne_nan_of_gt (List.mem_filter.mp hx).2

/-- C10: of two candidates that pass the filter with the same `totalScore`,
the one that comes first in the input comes first in the list `processRanks`
renders; the candidates of any one `totalScore` keep their input order. -/
theorem processRanks_stable (minScore : JSNumber) (ranks : List RankedSchema)
    (x y : RankedSchema) (hxy : [x, y].Sublist ranks)
    (hx : JSNumber.gt x.rank.totalScore minScore = true)
    (hy : JSNumber.gt y.rank.totalScore minScore = true)
    (heq : x.rank.totalScore = y.rank.totalScore) :
    [x, y].Sublist (processRanks minScore ranks) ∧
    ∀ v : JSNumber, (processRanks minScore ranks).filter (fun r => r.rank.totalScore = v)
      = (ranks.filter (fun item => JSNumber.gt item.rank.totalScore minScore)).filter
          (fun r => r.rank.totalScore = v) := by
  constructor
  · have hf := hxy.filter (fun item => JSNumber.gt item.rank.totalScore minScore)
    simp only [List.filter_cons, hx, hy, if_true, List.filter_nil] at hf
    exact List.pair_sublist_insertionSort (compareRanks_le_zero_of_eq heq) hf
  · intro v
    have hsub : ((ranks.filter (fun item => JSNumber.gt item.rank.totalScore minScore)).filter
        (fun r => r.rank.totalScore = v)).Sublist (processRanks minScore ranks) := by
      refine List.sublist_insertionSort ?_ (List.filter_sublist _)
      refine List.Pairwise.imp_of_mem ?_ (List.pairwise_of_forall (fun _ _ => trivial))
      intro a b ha hb _
      have ha' : a.rank.totalScore = v := by simpa using (List.mem_filter.mp ha).2
      have hb' : b.rank.totalScore = v := by simpa using (List.mem_filter.mp hb).2
      exact compareRanks_le_zero_of_eq (ha'.trans hb'.symm)
    have hsub2 := hsub.filter (fun r => decide (r.rank.totalScore = v))
    rw [List.filter_eq_self.mpr (fun a ha => (List.mem_filter.mp ha).2)] at hsub2
    have hperm := (processRanks_perm minScore ranks).filter
      (fun r => decide (r.rank.totalScore = v))
    exact (hsub2.eq_of_length hperm.length_eq.symm).symm

/-- Witness of C10: two candidates of total 1.6 with `minScore` 1.5. -/
theorem processRanks_stable_witness :
    [sampleRanked ['a'] (.num (8 / 5)), sampleRanked ['b'] (.num (8 / 5))].Sublist
      (processRanks (.num (3 / 2))
        [sampleRanked ['a'] (.num (8 / 5)), sampleRanked ['c'] (.num 2),
         sampleRanked ['b'] (.num (8 / 5))]) :=
  (processRanks_stable (.num (3 / 2))
    [sampleRanked ['a'] (.num (8 / 5)), sampleRanked ['c'] (.num 2),
     sampleRanked ['b'] (.num (8 / 5))]
    (sampleRanked ['a'] (.num (8 / 5))) (sampleRanked ['b'] (.num (8 / 5)))
    (List.Sublist.cons₂ _ (List.Sublist.cons _ (List.Sublist.refl _)))
    (by simp only [sampleRanked, JSNumber.gt]; norm_num)
    (by simp only [sampleRanked, JSNumber.gt]; norm_num)
    rfl).1

/-! ## The scorer: further claims -/

section FurtherScorerClaims

variable {α : Type} [DecidableEq α]

/-- The matrix `getScore` hands to `lcsTraceback` is `filledMatrix`. -/
theorem getScore_eq_traceback (s1 s2 : List α) :
    getScore s1 s2
      = (lcsTraceback (filledMatrix s1 s2) s1 s2 (s1.length + 1) (s2.length + 1)).map
          (fun longest =>
            { score := JSNumber.divNat longest.length s1.length, sequence := longest }) :=
  rfl

theorem isLcsMatrix_filledMatrix (s1 s2 : List α) : IsLcsMatrix s1 s2 (filledMatrix s1 s2) :=
  isLcsMatrix_fillMatrix s1 s2

/-- The call `lcsTraceback (matrix, s1, s2, height, width)` that `getScore`
makes, one past the end of both strings, returns what the call at the two
lengths returns. -/
theorem lcsTraceback_initial (m : List (List Nat)) (s1 s2 : List α) :
    lcsTraceback m s1 s2 (s1.length + 1) (s2.length + 1)
      = lcsTraceback m s1 s2 s1.length s2.length := by
  rw [lcsTraceback, dif_neg (by omega)]
  simp only [Nat.add_sub_cancel]
  have h1 : s1[s1.length]? = none := List.getElem?_eq_none (le_refl _)
  have h2 : s2[s2.length]? = none := List.getElem?_eq_none (le_refl _)
  rw [h1, h2, if_pos rfl]
  cases lcsTraceback m s1 s2 s1.length s2.length <;> simp

/-- C12: the sequences of `getScore (a, b)` and of `getScore (b, a)` have the
same length; the sequences themselves can differ (`ab` and `ba` give `a` one
way and `b` the other) and so can the scores (`a` and `ab` give 1 one way and
1/2 the other). -/
theorem getScore_sequence_length_symm (a b : List α) :
    (∃ r1 r2, getScore a b = some r1 ∧ getScore b a = some r2 ∧
      r1.sequence.length = r2.sequence.length) ∧
    (getScore ['a', 'b'] ['b', 'a']).map (fun r => r.sequence) = some ['a'] ∧
    (getScore ['b', 'a'] ['a', 'b']).map (fun r => r.sequence) = some ['b'] ∧
    (getScore ['a'] ['a', 'b']).map (fun r => r.score) = some (.num 1) ∧
    (getScore ['a', 'b'] ['a']).map (fun r => r.score) = some (.num (1 / 2)) := by
  refine ⟨?_, ?_, ?_, ?_, ?_⟩
  · obtain ⟨r1, h1, h1a, h1b, hl1⟩ := getScore_spec a b
    obtain ⟨r2, h2, h2b, h2a, hl2⟩ := getScore_spec b a
    refine ⟨_, _, h1, h2, ?_⟩
    show r1.length = r2.length
    have h12 : r1.length ≤ r2.length := by
      rw [hl2]
      exact lcsTable_upper_bound b a _ _ r1 (by simpa using h1b) (by simpa using h1a)
    have h21 : r2.length ≤ r1.length := by
      rw [hl1]
      exact lcsTable_upper_bound a b _ _ r2 (by simpa using h2a) (by simpa using h2b)
    omega
  · rw [getScore_eq_traceback, lcsTraceback_initial]
    have hm : filledMatrix ['a', 'b'] ['b', 'a'] = [[0, 0, 0], [0, 0, 1], [0, 1, 1]] := by decide
    rw [hm]
    simp [lcsTraceback, gtUndef]
  · rw [getScore_eq_traceback, lcsTraceback_initial]
    have hm : filledMatrix ['b', 'a'] ['a', 'b'] = [[0, 0, 0], [0, 0, 1], [0, 1, 1]] := by decide
    rw [hm]
    simp [lcsTraceback, gtUndef]
  · rw [getScore_of_sublist ['a'] ['a', 'b'] (by simp) (by decide)]
    rfl
  · rw [getScore_eq_traceback, lcsTraceback_initial]
    have hm : filledMatrix ['a', 'b'] ['a'] = [[0, 0], [0, 1], [0, 1]] := by decide
    rw [hm]
    simp [lcsTraceback, gtUndef, JSNumber.divNat]

/-- C14: for a non-empty reference `s1` and a query `s2` that is a subsequence
of `s1`, `getScore` returns the sequence `s2` and the score
`length s2 / length s1`. -/
theorem getScore_of_query_sublist (s1 s2 : List α) (hne : s1 ≠ []) (hsub : s2.Sublist s1) :
    getScore s1 s2
      = some { score := .num ((s2.length : ℚ) / (s1.length : ℚ)), sequence := s2 } := by
  obtain ⟨r, hr, _, hr2, hlen⟩ := getScore_spec s1 s2
  have hub := lcsTable_upper_bound s1 s2 s1.length s2.length s2 (by simpa using hsub) (by simp)
  have hrs : r = s2 := hr2.eq_of_length_le (by omega)
  have hlen0 : s1.length ≠ 0 := fun h => hne (List.length_eq_zero.mp h)
  rw [hr, hrs, divNat_of_ne_zero _ hlen0]

/-- Witness of C14: reference `settings-view`, query `view`, sequence `view`,
score 4/13. -/
theorem getScore_of_query_sublist_witness :
    (['s', 'e', 't', 't', 'i', 'n', 'g', 's', '-', 'v', 'i', 'e', 'w'] : List Char) ≠ [] ∧
    (['v', 'i', 'e', 'w'] : List Char).Sublist
      ['s', 'e', 't', 't', 'i', 'n', 'g', 's', '-', 'v', 'i', 'e', 'w'] ∧
    getScore ['s', 'e', 't', 't', 'i', 'n', 'g', 's', '-', 'v', 'i', 'e', 'w'] ['v', 'i', 'e', 'w']
      = some { score := .num (4 / 13), sequence := ['v', 'i', 'e', 'w'] } :=
  ⟨by simp, by decide, by
    rw [getScore_of_query_sublist
      ['s', 'e', 't', 't', 'i', 'n', 'g', 's', '-', 'v', 'i', 'e', 'w'] ['v', 'i', 'e', 'w']
      (by simp) (by decide)]
    norm_num⟩

/-- C16: after the two loops of `getScore`, for `i <= length s1` and
`j <= length s2` the entry `matrix[i][j]` exists and is the length of a
longest common subsequence of the first `i` characters of `s1` and the first
`j` of `s2`; row 0 and column 0 hold 0, and any other entry is
`matrix[i-1][j-1] + 1` when `s1[i-1] == s2[j-1]` and the maximum of
`matrix[i][j-1]` and `matrix[i-1][j]` otherwise. -/
theorem filledMatrix_entry (s1 s2 : List α) (i j : Nat) (hi : i ≤ s1.length)
    (hj : j ≤ s2.length) :
    (∃ row, (filledMatrix s1 s2)[i]? = some row ∧
      row[j]? = some (readCell (filledMatrix s1 s2) i j)) ∧
    (∃ t : List α, t.Sublist (s1.take i) ∧ t.Sublist (s2.take j) ∧
      t.length = readCell (filledMatrix s1 s2) i j) ∧
    (∀ t : List α, t.Sublist (s1.take i) → t.Sublist (s2.take j) →
      t.length ≤ readCell (filledMatrix s1 s2) i j) ∧
    readCell (filledMatrix s1 s2) 0 j = 0 ∧
    readCell (filledMatrix s1 s2) i 0 = 0 ∧
    (0 < i → 0 < j →
      readCell (filledMatrix s1 s2) i j
        = if s1[i - 1]? = s2[j - 1]? then readCell (filledMatrix s1 s2) (i - 1) (j - 1) + 1
          else max (readCell (filledMatrix s1 s2) i (j - 1))
            (readCell (filledMatrix s1 s2) (i - 1) j)) := by
  have hm := isLcsMatrix_filledMatrix s1 s2
  refine ⟨wellDim_cell hm.1 hi hj, ?_, ?_, ?_, ?_, ?_⟩
  · obtain ⟨r, _, hr1, hr2, hlen⟩ := lcsTraceback_spec s1 s2 hm _ i j rfl hi hj
    exact ⟨r, hr1, hr2, by rw [hlen, hm.2 i j hi hj]⟩
  · intro t ht1 ht2
    rw [hm.2 i j hi hj]
    exact lcsTable_upper_bound s1 s2 i j t ht1 ht2
  · rw [hm.2 0 j (Nat.zero_le _) hj, lcsTable_zero_left]
  · rw [hm.2 i 0 hi (Nat.zero_le _), lcsTable_zero_right]
  · intro hi0 hj0
    obtain ⟨i', rfl⟩ : ∃ i', i = i' + 1 := ⟨i - 1, by omega⟩
    obtain ⟨j', rfl⟩ : ∃ j', j = j' + 1 := ⟨j - 1, by omega⟩
    simp only [Nat.add_sub_cancel]
    rw [hm.2 _ _ hi hj, hm.2 i' j' (by omega) (by omega), hm.2 (i' + 1) j' hi (by omega),
      hm.2 i' (j' + 1) (by omega) hj, lcsTable.eq_3]

/-- Witness of C16 at `s1 = ab`, `s2 = ba`, `i = 2`, `j = 2`. -/
theorem filledMatrix_entry_witness :
    readCell (filledMatrix ['a', 'b'] ['b', 'a']) 2 2
      = if (['a', 'b'] : List Char)[2 - 1]? = (['b', 'a'] : List Char)[2 - 1]? then
          readCell (filledMatrix ['a', 'b'] ['b', 'a']) (2 - 1) (2 - 1) + 1
        else max (readCell (filledMatrix ['a', 'b'] ['b', 'a']) 2 (2 - 1))
          (readCell (filledMatrix ['a', 'b'] ['b', 'a']) (2 - 1) 2) :=
  (filledMatrix_entry ['a', 'b'] ['b', 'a'] 2 2 (by decide) (by decide)).2.2.2.2.2
    (by decide) (by decide)

/-- Every call of `lcsTraceback` that compares two entries of the matrix has a
`height` and a `width` between 1 and those of the call it descends from. -/
theorem lcsTracebackReads_bounds (m : List (List Nat)) (s1 s2 : List α) :
    ∀ n h w, h + w = n → ∀ p ∈ lcsTracebackReads m s1 s2 h w,
      1 ≤ p.1 ∧ p.1 ≤ h ∧ 1 ≤ p.2 ∧ p.2 ≤ w := by
  intro n
  induction n using Nat.strong_induction_on with
  | _ n ih =>
    intro h w hn p hp
    rw [lcsTracebackReads] at hp
    by_cases h0 : h = 0 ∨ w = 0
    · rw [dif_pos h0] at hp
      simp at hp
    · rw [dif_neg h0] at hp
      by_cases heq : s1[h - 1]? = s2[w - 1]?
      · rw [if_pos heq] at hp
        have := ih (h - 1 + (w - 1)) (by omega) (h - 1) (w - 1) rfl p hp
        omega
      · rw [if_neg heq] at hp
        have hself : 1 ≤ h ∧ h ≤ h ∧ 1 ≤ w ∧ w ≤ w := by omega
        cases hH : m[h]? with
        | none =>
          rw [hH] at hp
          rw [List.mem_singleton.mp hp]
          exact hself
        | some rowH =>
          cases hP : m[h - 1]? with
          | none =>
            rw [hH, hP] at hp
            rw [List.mem_singleton.mp hp]
            exact hself
          | some rowP =>
            rw [hH, hP] at hp
            simp only at hp
            split_ifs at hp
            · rcases List.mem_cons.mp hp with rfl | hp
              · exact hself
              · have := ih (h + (w - 1)) (by omega) h (w - 1) rfl p hp
                omega
            · rcases List.mem_cons.mp hp with rfl | hp
              · exact hself
              · have := ih (h - 1 + w) (by omega) (h - 1) w rfl p hp
                omega

/-- C19: the call of `lcsTraceback` that `getScore` makes, one past the end of
both strings, finds both characters `undefined`, so it takes the branch of
equal characters, adds the empty string and returns a string; every call that
compares `matrix[h][w-1]` with `matrix[h-1][w]` has `1 <= h <= length s1` and
`1 <= w <= length s2`, and the two entries it reads exist. -/
theorem lcsTraceback_reads_in_bounds (s1 s2 : List α) :
    s1[s1.length + 1 - 1]? = none ∧ s2[s2.length + 1 - 1]? = none ∧
    lcsTraceback (filledMatrix s1 s2) s1 s2 (s1.length + 1) (s2.length + 1)
      = lcsTraceback (filledMatrix s1 s2) s1 s2 s1.length s2.length ∧
    (∃ r, lcsTraceback (filledMatrix s1 s2) s1 s2 (s1.length + 1) (s2.length + 1) = some r) ∧
    ∀ p ∈ lcsTracebackReads (filledMatrix s1 s2) s1 s2 (s1.length + 1) (s2.length + 1),
      1 ≤ p.1 ∧ p.1 ≤ s1.length ∧ 1 ≤ p.2 ∧ p.2 ≤ s2.length ∧
      ∃ rowH rowP x y, (filledMatrix s1 s2)[p.1]? = some rowH ∧
        (filledMatrix s1 s2)[p.1 - 1]? = some rowP ∧
        rowH[p.2 - 1]? = some x ∧ rowP[p.2]? = some y := by
  have hm := isLcsMatrix_filledMatrix s1 s2
  have h1 : s1[s1.length]? = none := List.getElem?_eq_none (le_refl _)
  have h2 : s2[s2.length]? = none := List.getElem?_eq_none (le_refl _)
  refine ⟨by simp, by simp, lcsTraceback_initial _ s1 s2, ?_, ?_⟩
  · obtain ⟨r, hr, _⟩ := lcsTraceback_spec s1 s2 hm _ s1.length s2.length rfl
      (le_refl _) (le_refl _)
    exact ⟨r, by rw [lcsTraceback_initial, hr]⟩
  · intro p hp
    rw [lcsTracebackReads, dif_neg (by omega)] at hp
    simp only [Nat.add_sub_cancel] at hp
    rw [h1, h2, if_pos rfl] at hp
    have hb := lcsTracebackReads_bounds _ s1 s2 _ s1.length s2.length rfl p hp
    obtain ⟨rowH, hrowH, hx⟩ := wellDim_cell hm.1 (i := p.1) (j := p.2 - 1) (by omega) (by omega)
    obtain ⟨rowP, hrowP, hy⟩ := wellDim_cell hm.1 (i := p.1 - 1) (j := p.2) (by omega) (by omega)
    exact ⟨hb.1, hb.2.1, hb.2.2.1, hb.2.2.2, rowH, rowP, _, _, hrowH, hrowP, hx, hy⟩

/-- Witness of C19 at `s1 = ab`, `s2 = ba`: the one comparison is made at
`(2, 2)`. -/
theorem lcsTraceback_reads_in_bounds_witness :
    lcsTracebackReads (filledMatrix ['a', 'b'] ['b', 'a']) ['a', 'b'] ['b', 'a'] 3 3 = [(2, 2)] ∧
    (1 ≤ 2 ∧ 2 ≤ (['a', 'b'] : List Char).length ∧ 1 ≤ 2 ∧ 2 ≤ (['b', 'a'] : List Char).length ∧
      ∃ rowH rowP x y, (filledMatrix ['a', 'b'] ['b', 'a'])[2]? = some rowH ∧
        (filledMatrix ['a', 'b'] ['b', 'a'])[2 - 1]? = some rowP ∧
        rowH[2 - 1]? = some x ∧ rowP[2]? = some y) := by
  have hm : filledMatrix ['a', 'b'] ['b', 'a'] = [[0, 0, 0], [0, 0, 1], [0, 1, 1]] := by decide
  have hreads : lcsTracebackReads (filledMatrix ['a', 'b'] ['b', 'a']) ['a', 'b'] ['b', 'a'] 3 3
      = [(2, 2)] := by
    rw [hm]
    simp [lcsTracebackReads, gtUndef]
  exact ⟨hreads, (lcsTraceback_reads_in_bounds ['a', 'b'] ['b', 'a']).2.2.2.2 (2, 2)
    (by rw [show (['a', 'b'] : List Char).length + 1 = 3 from rfl,
      show (['b', 'a'] : List Char).length + 1 = 3 from rfl, hreads]; simp)⟩

/-- The score of a non-empty reference is 1 exactly when the reference is a
subsequence of the second string. -/
theorem getScore_score_one_iff (s1 s2 : List α) (hne : s1 ≠ []) :
    ∃ r, getScore s1 s2 = some r ∧
      (JSNumber.strictEq r.score (.num 1) = true ↔ s1.Sublist s2) := by
  obtain ⟨r, hr, hr1, hr2, _⟩ := getScore_spec s1 s2
  have hlen0 : s1.length ≠ 0 := fun h => hne (List.length_eq_zero.mp h)
  have hq : ((s1.length : ℚ)) ≠ 0 := by exact_mod_cast hlen0
  refine ⟨_, hr, ?_⟩
  show JSNumber.strictEq (JSNumber.divNat r.length s1.length) (.num 1) = true ↔ _
  rw [divNat_of_ne_zero _ hlen0]
  simp only [JSNumber.strictEq, decide_eq_true_eq]
  constructor
  · intro h
    have hl : (r.length : ℚ) = (s1.length : ℚ) := by
      have := (div_eq_one_iff_eq hq).mp h
      exact this
    have hl' : r.length = s1.length := by exact_mod_cast hl
    rw [← hr1.eq_of_length hl']
    exact hr2
  · intro h
    have := getScore_of_sublist s1 s2 hne h
    rw [hr, divNat_of_ne_zero _ hlen0] at this
    have hs := congrArg Score.score (Option.some.inj this)
    exact JSNumber.num.inj hs

/-- C20: for a non-empty `s1`, the score of `getScore (s1, s2)` is 1 exactly
when `s1` is a subsequence of `s2`; so, for a non-empty typed text, each of the
four field scores of `filterSettings` is 1 exactly when the typed text is a
subsequence of the lowercased text of that field. -/
theorem getScore_perfect_iff_sublist (s1 s2 : List α) (hne : s1 ≠ []) :
    (∃ r, getScore s1 s2 = some r ∧
      (JSNumber.strictEq r.score (.num 1) = true ↔ s1.Sublist s2)) ∧
    ∀ (toLowerCase : List Char → List Char) (text setting item : List Char)
      (schema : ItemSchema), text ≠ [] →
      ∃ rank, fieldRanks toLowerCase text setting item schema = some rank ∧
        (JSNumber.strictEq rank.title.score (.num 1) = true
          ↔ text.Sublist (passString toLowerCase schema.title)) ∧
        (JSNumber.strictEq rank.description.score (.num 1) = true
          ↔ text.Sublist (passString toLowerCase schema.description)) ∧
        (JSNumber.strictEq rank.settingName.score (.num 1) = true
          ↔ text.Sublist (passString toLowerCase (some setting))) ∧
        (JSNumber.strictEq rank.settingItem.score (.num 1) = true
          ↔ text.Sublist (passString toLowerCase (some item))) := by
  refine ⟨getScore_score_one_iff s1 s2 hne, ?_⟩
  intro toLowerCase text setting item schema htext
  obtain ⟨rank, hrank, h1, h2, h3, h4⟩ := fieldRanks_spec toLowerCase text setting item schema
  refine ⟨rank, hrank, ?_, ?_, ?_, ?_⟩
  · obtain ⟨r, hr, hiff⟩ := getScore_score_one_iff text (passString toLowerCase schema.title) htext
    rw [h1] at hr
    rw [Option.some.inj hr]
    exact hiff
  · obtain ⟨r, hr, hiff⟩ :=
      getScore_score_one_iff text (passString toLowerCase schema.description) htext
    rw [h2] at hr
    rw [Option.some.inj hr]
    exact hiff
  · obtain ⟨r, hr, hiff⟩ :=
      getScore_score_one_iff text (passString toLowerCase (some setting)) htext
    rw [h3] at hr
    rw [Option.some.inj hr]
    exact hiff
  · obtain ⟨r, hr, hiff⟩ := getScore_score_one_iff text (passString toLowerCase (some item)) htext
    rw [h4] at hr
    rw [Option.some.inj hr]
    exact hiff

/-- Witness of C20: `view` against `settings-view` scores 1, `settings-view`
against `view` does not. -/
theorem getScore_perfect_iff_sublist_witness :
    (['v', 'i', 'e', 'w'] : List Char) ≠ [] ∧
    ∃ r, getScore ['v', 'i', 'e', 'w']
        ['s', 'e', 't', 't', 'i', 'n', 'g', 's', '-', 'v', 'i', 'e', 'w'] = some r ∧
      (JSNumber.strictEq r.score (.num 1) = true ↔
        (['v', 'i', 'e', 'w'] : List Char).Sublist
          ['s', 'e', 't', 't', 'i', 'n', 'g', 's', '-', 'v', 'i', 'e', 'w']) :=
  ⟨by simp, (getScore_perfect_iff_sublist ['v', 'i', 'e', 'w']
    ['s', 'e', 't', 't', 'i', 'n', 'g', 's', '-', 'v', 'i', 'e', 'w'] (by simp)).1⟩

/-- C13, as the code has it: where the two boundary characters differ and the
two neighbouring entries `matrix[height][width - 1]` and
`matrix[height - 1][width]` are equal, `lcsTraceback` continues at
`(height - 1, width)`: it reduces the reference index; with reference `ab`
and query `ba` the sequence is `a`. -/
theorem lcsTraceback_tie (matrix : List (List Nat)) (s1 s2 : List α) (height width : Nat)
    (rowH rowP : List Nat) (hpos : ¬ (height = 0 ∨ width = 0))
    (hne : s1[height - 1]? ≠ s2[width - 1]?)
    (hH : matrix[height]? = some rowH) (hP : matrix[height - 1]? = some rowP)
    (htie : rowH[width - 1]? = rowP[width]?) :
    lcsTraceback matrix s1 s2 height width
        = lcsTraceback matrix s1 s2 (height - 1) width ∧
      (getScore ['a', 'b'] ['b', 'a']).map (fun r => r.sequence) = some ['a'] := by
  constructor
  · rw [lcsTraceback, dif_neg hpos, if_neg hne, hH, hP]
    simp only
    have hgt : gtUndef rowH[width - 1]? rowP[width]? = false := by
      rw [htie]
      cases rowP[width]? <;> simp [gtUndef]
    rw [hgt]
    simp
  · rw [getScore_eq_traceback, lcsTraceback_initial]
    have hm : filledMatrix ['a', 'b'] ['b', 'a'] = [[0, 0, 0], [0, 0, 1], [0, 1, 1]] := by
      decide
    rw [hm]
    simp [lcsTraceback, gtUndef]

/-- Witness of C13 as amended: reference `ab`, query `ba`, at `(2, 2)`. -/
theorem lcsTraceback_tie_witness :
    lcsTraceback (filledMatrix ['a', 'b'] ['b', 'a']) ['a', 'b'] ['b', 'a'] 2 2
      = lcsTraceback (filledMatrix ['a', 'b'] ['b', 'a']) ['a', 'b'] ['b', 'a'] (2 - 1) 2 :=
  (lcsTraceback_tie (filledMatrix ['a', 'b'] ['b', 'a']) ['a', 'b'] ['b', 'a'] 2 2
    [0, 1, 1] [0, 0, 1] (by decide) (by decide) (by decide) (by decide) (by decide)).1

/-- Counterexample to C13 as stated: with reference `ab` and query `ba`, at
`(2, 2)` the characters `b` and `a` differ and `matrix[2][1]` and
`matrix[1][2]` are both 1, yet the traceback returns `a`, what the call at
`(1, 2)` returns, and not `b`, what the call at `(2, 1)` returns. -/
theorem lcsTraceback_tie_counterexample :
    (['a', 'b'] : List Char)[2 - 1]? ≠ (['b', 'a'] : List Char)[2 - 1]? ∧
    readCell (filledMatrix ['a', 'b'] ['b', 'a']) 2 (2 - 1)
      = readCell (filledMatrix ['a', 'b'] ['b', 'a']) (2 - 1) 2 ∧
    lcsTraceback (filledMatrix ['a', 'b'] ['b', 'a']) ['a', 'b'] ['b', 'a'] 2 2 = some ['a'] ∧
    lcsTraceback (filledMatrix ['a', 'b'] ['b', 'a']) ['a', 'b'] ['b', 'a'] 2 (2 - 1)
      = some ['b'] ∧
    lcsTraceback (filledMatrix ['a', 'b'] ['b', 'a']) ['a', 'b'] ['b', 'a'] 2 2
      ≠ lcsTraceback (filledMatrix ['a', 'b'] ['b', 'a']) ['a', 'b'] ['b', 'a'] 2 (2 - 1) ∧
    (getScore ['a', 'b'] ['b', 'a']).map (fun r => r.sequence) = some ['a'] := by
  have hm : filledMatrix ['a', 'b'] ['b', 'a'] = [[0, 0, 0], [0, 0, 1], [0, 1, 1]] := by decide
  have h22 : lcsTraceback (filledMatrix ['a', 'b'] ['b', 'a']) ['a', 'b'] ['b', 'a'] 2 2
      = some ['a'] := by
    rw [hm]
    simp [lcsTraceback, gtUndef]
  have h21 : lcsTraceback (filledMatrix ['a', 'b'] ['b', 'a']) ['a', 'b'] ['b', 'a'] 2 (2 - 1)
      = some ['b'] := by
    rw [hm]
    simp [lcsTraceback, gtUndef]
  refine ⟨by decide, by decide, h22, h21, ?_, ?_⟩
  · rw [h22, h21]
    simp
  · rw [getScore_eq_traceback, lcsTraceback_initial]
    exact congrArg (Option.map (fun r : Score Char => r.sequence))
      (congrArg (Option.map (fun longest : List Char =>
        ({ score := JSNumber.divNat longest.length 2, sequence := longest } : Score Char))) h22)

end FurtherScorerClaims

/-! ## The ranking pass: enumeration and state -/

theorem rankSchema_eq_some_rankOf (toLowerCase : List Char → List Char)
    (text setting item : List Char) (schema : ItemSchema) :
    rankSchema toLowerCase text setting item schema
      = some (rankOf toLowerCase text setting item schema) := by
  obtain ⟨rank, _, hrs⟩ := rankSchema_spec toLowerCase text setting item schema
  rw [rankOf, hrs]
  rfl

theorem rankOf_schema_path (toLowerCase : List Char → List Char)
    (text setting item : List Char) (schema : ItemSchema) :
    (rankOf toLowerCase text setting item schema).schema = schema ∧
    (rankOf toLowerCase text setting item schema).path = setting ++ ['.'] ++ item := by
  obtain ⟨rank, _, hrs⟩ := rankSchema_spec toLowerCase text setting item schema
  rw [rankOf, hrs]
  exact ⟨rfl, rfl⟩

theorem candidates_nil : candidates [] = [] := rfl

theorem candidates_cons (entry : List Char × SettingSchema)
    (rest : List (List Char × SettingSchema)) :
    candidates (entry :: rest)
      = (if entry.2.type = some ['o', 'b', 'j', 'e', 'c', 't'] then
          entry.2.properties.map (fun prop => (entry.1, prop.1, prop.2))
         else []) ++ candidates rest := by
  unfold candidates
  by_cases h : entry.2.type = some ['o', 'b', 'j', 'e', 'c', 't']
  · simp [List.filter_cons, h]
  · simp [List.filter_cons, h]

theorem foldlM_rankSchema (toLowerCase : List Char → List Char) (text setting : List Char)
    (props : List (List Char × ItemSchema)) (acc : List RankedSchema) :
    props.foldlM
        (fun acc prop => do
          let schema ← rankSchema toLowerCase text setting prop.1 prop.2
          pure (acc ++ [schema]))
        acc
      = some (acc ++ props.map (fun prop => rankOf toLowerCase text setting prop.1 prop.2)) := by
  induction props generalizing acc with
  | nil => simp
  | cons prop rest ih =>
    rw [List.foldlM_cons, rankSchema_eq_some_rankOf]
    show List.foldlM _ (acc ++ [rankOf toLowerCase text setting prop.1 prop.2]) rest = _
    rw [ih]
    simp

/-- The array `rankedResults` holds the ranked schema of each candidate, in
the order of `candidates`. -/
theorem rankedResults_eq_map (toLowerCase : List Char → List Char)
    (settingsSchema : List (List Char × SettingSchema)) (text : List Char) :
    rankedResults toLowerCase settingsSchema text
      = some ((candidates settingsSchema).map
          (fun c => rankOf toLowerCase text c.1 c.2.1 c.2.2)) := by
  have key : ∀ (schema : List (List Char × SettingSchema)) (acc : List RankedSchema),
      schema.foldlM
        (fun acc entry =>
          if entry.2.type = some ['o', 'b', 'j', 'e', 'c', 't'] then
            entry.2.properties.foldlM
              (fun acc prop => do
                let schema ← rankSchema toLowerCase text entry.1 prop.1 prop.2
                pure (acc ++ [schema]))
              acc
          else pure acc)
        acc
      = some (acc ++ (candidates schema).map
          (fun c => rankOf toLowerCase text c.1 c.2.1 c.2.2)) := by
    intro schema
    induction schema with
    | nil => intro acc; simp [candidates_nil]
    | cons entry rest ih =>
      intro acc
      rw [List.foldlM_cons, candidates_cons]
      by_cases h : entry.2.type = some ['o', 'b', 'j', 'e', 'c', 't']
      · rw [if_pos h, if_pos h, foldlM_rankSchema]
        show List.foldlM _ (acc ++ entry.2.properties.map
          (fun prop => rankOf toLowerCase text entry.1 prop.1 prop.2)) rest = _
        rw [ih]
        simp [List.map_append, Function.comp_def]
      · rw [if_neg h, if_neg h]
        show List.foldlM _ acc rest = _
        rw [ih]
        simp
  have := key settingsSchema []
  simpa [rankedResults] using this

theorem candidates_append (a b : List (List Char × SettingSchema)) :
    candidates (a ++ b) = candidates a ++ candidates b := by
  simp [candidates, List.filter_append, List.flatMap_append]

/-- The rank of a ranked schema holds the four `getScore` results and the
total computed from them. -/
theorem rankOf_rank (toLowerCase : List Char → List Char) (text setting item : List Char)
    (schema : ItemSchema) :
    getScore text (passString toLowerCase schema.title)
      = some (rankOf toLowerCase text setting item schema).rank.title ∧
    getScore text (passString toLowerCase schema.description)
      = some (rankOf toLowerCase text setting item schema).rank.description ∧
    getScore text (passString toLowerCase (some setting))
      = some (rankOf toLowerCase text setting item schema).rank.settingName ∧
    getScore text (passString toLowerCase (some item))
      = some (rankOf toLowerCase text setting item schema).rank.settingItem ∧
    (rankOf toLowerCase text setting item schema).rank.totalScore
      = totalScore (rankOf toLowerCase text setting item schema).rank.toFieldRanks := by
  obtain ⟨rank, hrank, h1, h2, h3, h4⟩ := fieldRanks_spec toLowerCase text setting item schema
  have hrs : rankSchema toLowerCase text setting item schema
      = some { schema := schema,
               rank := { toFieldRanks := rank, totalScore := totalScore rank },
               path := setting ++ ['.'] ++ item } := by
    simp [rankSchema, hrank]
  rw [rankOf, hrs]
  exact ⟨h1, h2, h3, h4, rfl⟩

/-- C17: the array `filterSettings` hands to `processRanks` holds exactly one
scored result for each pair of a top-level entry of type `object` and a key of
its properties, in enumeration order, with the path `setting.item`; an entry
whose type is not `object` adds nothing. -/
theorem rankedResults_one_per_candidate (toLowerCase : List Char → List Char)
    (settingsSchema : List (List Char × SettingSchema)) (text : List Char) :
    (∃ rs, rankedResults toLowerCase settingsSchema text = some rs ∧
      rs.length = (candidates settingsSchema).length ∧
      rs.map (fun r => (r.path, r.schema))
        = (candidates settingsSchema).map (fun c => (c.1 ++ ['.'] ++ c.2.1, c.2.2)) ∧
      rs.map some
        = (candidates settingsSchema).map
            (fun c => rankSchema toLowerCase text c.1 c.2.1 c.2.2)) ∧
    ∀ (before after : List (List Char × SettingSchema)) (entry : List Char × SettingSchema),
      entry.2.type ≠ some ['o', 'b', 'j', 'e', 'c', 't'] →
      rankedResults toLowerCase (before ++ entry :: after) text
        = rankedResults toLowerCase (before ++ after) text := by
  constructor
  · refine ⟨_, rankedResults_eq_map toLowerCase settingsSchema text, by simp, ?_, ?_⟩
    · rw [List.map_map]
      refine List.map_congr_left (fun c _ => ?_)
      obtain ⟨h1, h2⟩ := rankOf_schema_path toLowerCase text c.1 c.2.1 c.2.2
      simp only [Function.comp_apply, h1, h2]
    · rw [List.map_map]
      refine List.map_congr_left (fun c _ => ?_)
      simp only [Function.comp_apply, rankSchema_eq_some_rankOf]
  · intro before after entry hentry
    rw [rankedResults_eq_map, rankedResults_eq_map, candidates_append, candidates_append,
      candidates_cons, if_neg hentry, List.nil_append]

/-- Witness of C17: an entry of type `string` between two others. -/
theorem rankedResults_one_per_candidate_witness :
    rankedResults asciiToLowerCase
        ([] ++ ("core".toList, { type := some "string".toList,
                                 properties := [("a".toList, { title := none,
                                                               description := none })] }) :: [])
        "a".toList
      = rankedResults asciiToLowerCase ([] ++ []) "a".toList :=
  (rankedResults_one_per_candidate asciiToLowerCase [] "a".toList).2 [] []
    ("core".toList, { type := some "string".toList,
                      properties := [("a".toList, { title := none, description := none })] })
    (by decide)

/-- C18: for a setting that is itself an object with a property of its own,
`filterSettings` scores the setting and nothing below it: the one result has
the path `editor.invisibles`, and the nested property `cr` gets none. -/
theorem rankedResults_nested_not_descended (text : List Char) :
    ∃ r, rankedResults asciiToLowerCase
        [("editor".toList,
          { type := some "object".toList,
            properties :=
              [("invisibles".toList,
                { title := some "Invisibles".toList, description := none,
                  type := some "object".toList,
                  properties := [("cr".toList, { title := some "Cr".toList,
                                                 description := none })] })] })]
        text = some [r] ∧
      r.path = "editor.invisibles".toList := by
  refine ⟨_, rankedResults_eq_map _ _ _, ?_⟩
  exact (rankOf_schema_path _ _ _ _ _).2

theorem getScore_upper_v_lower_v :
    getScore ['V'] ['v'] = some { score := .num 0, sequence := [] } := by
  rw [getScore_eq_traceback, lcsTraceback_initial]
  have hm : filledMatrix ['V'] ['v'] = [[0, 0], [0, 0]] := by decide
  rw [hm]
  simp [lcsTraceback, gtUndef, JSNumber.divNat]

/-- C11: `filterSettings` lowercases the field texts and not the typed text:
with the title `V`, the typed text `V` gets the title score 0 and the typed
text `v`, its lowercase, gets the title score 1. -/
theorem rankedResults_typed_text_not_lowercased :
    ∃ r r', rankedResults asciiToLowerCase
        [("core".toList, { type := some "object".toList,
                           properties := [("x".toList, { title := some "V".toList,
                                                         description := none })] })]
        "V".toList = some [r] ∧
      rankedResults asciiToLowerCase
        [("core".toList, { type := some "object".toList,
                           properties := [("x".toList, { title := some "V".toList,
                                                         description := none })] })]
        (asciiToLowerCase "V".toList) = some [r'] ∧
      r.rank.title.score = .num 0 ∧ r'.rank.title.score = .num 1 := by
  refine ⟨_, _, rankedResults_eq_map _ _ _, rankedResults_eq_map _ _ _, ?_, ?_⟩
  · have h := (rankOf_rank asciiToLowerCase "V".toList "core".toList "x".toList
      { title := some "V".toList, description := none }).1
    have hlow : passString asciiToLowerCase (some "V".toList) = ['v'] := by decide
    rw [show ("V".toList) = ['V'] from rfl] at h
    rw [show ({ title := some ['V'], description := none } : ItemSchema).title = some ['V']
      from rfl] at h
    rw [show passString asciiToLowerCase (some ['V']) = ['v'] from hlow,
      getScore_upper_v_lower_v] at h
    have h' := congrArg Score.score (Option.some.inj h)
    exact h'.symm
  · have h := (rankOf_rank asciiToLowerCase (asciiToLowerCase "V".toList) "core".toList
      "x".toList { title := some "V".toList, description := none }).1
    have hlow : passString asciiToLowerCase (some "V".toList) = ['v'] := by decide
    have hq : asciiToLowerCase "V".toList = ['v'] := by decide
    rw [show ({ title := some "V".toList, description := none } : ItemSchema).title
      = some "V".toList from rfl, hlow, hq,
      getScore_of_sublist ['v'] ['v'] (by simp) (List.Sublist.refl _)] at h
    have h' := congrArg Score.score (Option.some.inj h)
    rw [hq]
    exact h'.symm

/-! ## The ranking pass run twice -/

theorem itemsAfter_eq_map (toLowerCase : List Char → List Char) (text setting : List Char)
    (props : List (List Char × ItemSchema)) :
    itemsAfter toLowerCase text setting props
      = some (props.map
          (fun prop => (prop.1, (rankOf toLowerCase text setting prop.1 prop.2).object))) := by
  induction props with
  | nil => rfl
  | cons prop rest ih =>
    rw [itemsAfter, rankSchema_eq_some_rankOf, ih]
    rfl

theorem settingsSchemaAfter_eq_map (toLowerCase : List Char → List Char) (text : List Char)
    (settingsSchema : List (List Char × SettingSchema)) :
    settingsSchemaAfter toLowerCase text settingsSchema
      = some (settingsSchema.map (fun entry =>
          (entry.1,
            { entry.2 with
              properties :=
                if entry.2.type = some ['o', 'b', 'j', 'e', 'c', 't'] then
                  entry.2.properties.map (fun prop =>
                    (prop.1, (rankOf toLowerCase text entry.1 prop.1 prop.2).object))
                else entry.2.properties }))) := by
  induction settingsSchema with
  | nil => rfl
  | cons entry rest ih =>
    rw [settingsSchemaAfter, ih]
    by_cases h : entry.2.type = some ['o', 'b', 'j', 'e', 'c', 't']
    · rw [if_pos h, itemsAfter_eq_map]
      simp [h]
    · rw [if_neg h]
      simp [h]

/-- A schema object that carries the `rank` and `path` of a pass gets the same
`rank` and `path` from the next: `fieldRanks` reads its title and description
only. -/
theorem rankOf_object (toLowerCase : List Char → List Char) (text setting item : List Char)
    (schema : ItemSchema) :
    rankOf toLowerCase text setting item (rankOf toLowerCase text setting item schema).object
      = (rankOf toLowerCase text setting item schema).rewritten := by
  obtain ⟨rank, hrank, hrs⟩ := rankSchema_spec toLowerCase text setting item schema
  have hr : rankOf toLowerCase text setting item schema
      = { schema := schema,
          rank := { toFieldRanks := rank, totalScore := totalScore rank },
          path := setting ++ ['.'] ++ item } := by
    rw [rankOf, hrs]
    rfl
  rw [hr]
  have hfield : fieldRanks toLowerCase text setting item
      (RankedSchema.object
        { schema := schema,
          rank := { toFieldRanks := rank, totalScore := totalScore rank },
          path := setting ++ ['.'] ++ item }) = some rank := hrank
  rw [rankOf, rankSchema, hfield]
  rfl

theorem candidates_after (toLowerCase : List Char → List Char) (text : List Char)
    (settingsSchema : List (List Char × SettingSchema)) :
    candidates (settingsSchema.map (fun entry =>
        (entry.1,
          { entry.2 with
            properties :=
              if entry.2.type = some ['o', 'b', 'j', 'e', 'c', 't'] then
                entry.2.properties.map (fun prop =>
                  (prop.1, (rankOf toLowerCase text entry.1 prop.1 prop.2).object))
              else entry.2.properties })))
      = (candidates settingsSchema).map
          (fun c => (c.1, c.2.1, (rankOf toLowerCase text c.1 c.2.1 c.2.2).object)) := by
  induction settingsSchema with
  | nil => rfl
  | cons entry rest ih =>
    rw [List.map_cons, candidates_cons, candidates_cons, ih, List.map_append]
    by_cases h : entry.2.type = some ['o', 'b', 'j', 'e', 'c', 't']
    · simp [h]
    · simp [h]

theorem rewritten_object (r : RankedSchema) : r.rewritten.object = r.object := rfl

theorem processRanks_map_rewritten (minScore : JSNumber) (ranks : List RankedSchema) :
    processRanks minScore (ranks.map RankedSchema.rewritten)
      = (processRanks minScore ranks).map RankedSchema.rewritten := by
  unfold processRanks arraySort
  simp only
  rw [List.filter_map]
  exact (List.map_insertionSort (fun a b => compareRanks a b ≤ 0)
    (fun a b => compareRanks a b ≤ 0) RankedSchema.rewritten _
    (fun _ _ _ _ => Iff.rfl)).symm

/-- C15: run on the schema that a pass of `filterSettings` left behind, with
the same text and minimum score, `filterSettings` renders the same schema
objects in the same order with the same ranks, and leaves the schema as it
found it: the `rank` and `path` written by the first pass are overwritten
with equal values. -/
theorem filterSettings_twice (toLowerCase : List Char → List Char) (minScore : JSNumber)
    (settingsSchema : List (List Char × SettingSchema)) (text : List Char) :
    ∃ out after, filterSettings toLowerCase minScore settingsSchema text = some out ∧
      settingsSchemaAfter toLowerCase text settingsSchema = some after ∧
      ∃ out', filterSettings toLowerCase minScore after text = some out' ∧
        out'.map RankedSchema.object = out.map RankedSchema.object ∧
        out'.map (fun r => r.rank) = out.map (fun r => r.rank) ∧
        out'.map (fun r => r.path) = out.map (fun r => r.path) ∧
        settingsSchemaAfter toLowerCase text after = some after := by
  refine ⟨_, _, by rw [filterSettings, rankedResults_eq_map]; rfl,
    settingsSchemaAfter_eq_map toLowerCase text settingsSchema, ?_⟩
  have hsecond : rankedResults toLowerCase
      (settingsSchema.map (fun entry =>
        (entry.1,
          { entry.2 with
            properties :=
              if entry.2.type = some ['o', 'b', 'j', 'e', 'c', 't'] then
                entry.2.properties.map (fun prop =>
                  (prop.1, (rankOf toLowerCase text entry.1 prop.1 prop.2).object))
              else entry.2.properties }))) text
      = some (((candidates settingsSchema).map
          (fun c => rankOf toLowerCase text c.1 c.2.1 c.2.2)).map RankedSchema.rewritten) := by
    rw [rankedResults_eq_map, candidates_after, List.map_map, List.map_map]
    refine congrArg some (List.map_congr_left (fun c _ => ?_))
    exact rankOf_object toLowerCase text c.1 c.2.1 c.2.2
  refine ⟨_, by rw [filterSettings, hsecond]; rfl, ?_, ?_, ?_, ?_⟩
  · rw [processRanks_map_rewritten, List.map_map]
    rfl
  · rw [processRanks_map_rewritten, List.map_map]
    rfl
  · rw [processRanks_map_rewritten, List.map_map]
    rfl
  · rw [settingsSchemaAfter_eq_map, List.map_map]
    refine congrArg some (List.map_congr_left (fun entry _ => ?_))
    by_cases h : entry.2.type = some ['o', 'b', 'j', 'e', 'c', 't']
    · simp [h, rankOf_object, rewritten_object]
    · simp [h]

/-! ## The total score in double arithmetic -/

/-- The sum `0.1 + 0.2` is the double `0.30000000000000004`. -/
theorem add_tenth_fifth :
    JSNumber.add (.num (1 / 10)) (.num (1 / 5))
      = .num (1351079888211149 / 4503599627370496) := by
  decide!

/-- Half way between the largest double and `2 ^ 1024` the rounding goes to
`Infinity`; just below it goes to the largest double. -/
theorem roundDouble_overflow :
    JSNumber.roundDouble (2 ^ 1024 - 2 ^ 970) = .infinity ∧
    JSNumber.roundDouble (2 ^ 1024 - 2 ^ 970 - 1) = .num (2 ^ 1024 - 2 ^ 971) ∧
    JSNumber.roundDouble (-(2 ^ 1024)) = .negInfinity := by
  decide!

/-- Below `2 ^ -1022` the doubles are spaced `2 ^ -1074` apart, and a tie goes
to the even multiple. -/
theorem roundDouble_subnormal :
    JSNumber.roundDouble (1 / 2 ^ 1074) = .num (1 / 2 ^ 1074) ∧
    JSNumber.roundDouble (1 / 2 ^ 1075) = .num 0 ∧
    JSNumber.roundDouble (3 / 2 ^ 1075) = .num (1 / 2 ^ 1073) := by
  decide!

/-- From `2 ^ 53` on the doubles are the even integers, and a tie goes to the
multiple of 4. -/
theorem roundDouble_integers :
    JSNumber.roundDouble (2 ^ 53 + 1) = .num (2 ^ 53) ∧
    JSNumber.roundDouble (2 ^ 53 + 3) = .num (2 ^ 53 + 4) ∧
    JSNumber.roundDouble 1 = .num 1 := by
  decide!

theorem totalScore_eq_ordered (rank : FieldRanks) :
    totalScore rank = orderedTotalScore rank.title.score rank.description.score
      rank.settingName.score rank.settingItem.score :=
  rfl

/-- C7, as the code has it: the `totalScore` of every candidate is the sum in
double arithmetic, added left to right in the order of the source, of the
score, the bonus and the perfect bonus of the title, of the description, of
the group name and of the item name, the perfect bonuses of the title, the
description and the group name all three keyed on the title score; this holds
of each entry of the array `filterSettings` hands to `processRanks`. -/
theorem filterSettings_totalScore_ordered (toLowerCase : List Char → List Char)
    (settingsSchema : List (List Char × SettingSchema)) (text setting item : List Char)
    (schema : ItemSchema) :
    (∃ r, rankSchema toLowerCase text setting item schema = some r ∧
      r.rank.totalScore = orderedTotalScore r.rank.title.score r.rank.description.score
        r.rank.settingName.score r.rank.settingItem.score) ∧
    ∃ rs, rankedResults toLowerCase settingsSchema text = some rs ∧
      rs.map (fun r => r.rank.totalScore)
        = rs.map (fun r => orderedTotalScore r.rank.title.score r.rank.description.score
            r.rank.settingName.score r.rank.settingItem.score) := by
  have key : ∀ setting item schema,
      (rankOf toLowerCase text setting item schema).rank.totalScore
        = orderedTotalScore (rankOf toLowerCase text setting item schema).rank.title.score
            (rankOf toLowerCase text setting item schema).rank.description.score
            (rankOf toLowerCase text setting item schema).rank.settingName.score
            (rankOf toLowerCase text setting item schema).rank.settingItem.score := by
    intro setting item schema
    rw [(rankOf_rank toLowerCase text setting item schema).2.2.2.2]
    exact totalScore_eq_ordered _
  refine ⟨⟨_, rankSchema_eq_some_rankOf toLowerCase text setting item schema, key _ _ _⟩,
    _, rankedResults_eq_map toLowerCase settingsSchema text, ?_⟩
  rw [List.map_map, List.map_map]
  exact List.map_congr_left (fun c _ => key c.1 c.2.1 c.2.2)

/-- Counterexample to C7 as stated: with the typed text `a` and a setting
whose title, description, group name and item name are all `a`, the four
scores are 1 and the source's left-to-right sum is the double
`5.1000000000000005`, while the four scores plus the eight bonuses make the
double `5.1`. -/
theorem filterSettings_totalScore_counterexample :
    ∃ r, rankedResults asciiToLowerCase
        [("a".toList, { type := some "object".toList,
                        properties := [("a".toList, { title := some "a".toList,
                                                      description := some "a".toList })] })]
        "a".toList = some [r] ∧
      r.rank.title.score = .num 1 ∧ r.rank.description.score = .num 1 ∧
      r.rank.settingName.score = .num 1 ∧ r.rank.settingItem.score = .num 1 ∧
      r.rank.totalScore = .num (5742089524897383 / 1125899906842624) ∧
      summedTotalScore r.rank.title.score r.rank.description.score r.rank.settingName.score
        r.rank.settingItem.score = .num (2871044762448691 / 562949953421312) ∧
      r.rank.totalScore ≠ summedTotalScore r.rank.title.score r.rank.description.score
        r.rank.settingName.score r.rank.settingItem.score := by
  have hself : getScore ['a'] ['a'] = some { score := .num 1, sequence := ['a'] } :=
    getScore_of_sublist ['a'] ['a'] (by simp) (List.Sublist.refl _)
  have hlow : passString asciiToLowerCase (some ['a']) = ['a'] := by decide
  obtain ⟨h1, h2, h3, h4, h5⟩ := rankOf_rank asciiToLowerCase ['a'] ['a'] ['a']
    { title := some ['a'], description := some ['a'] }
  simp only [hlow, hself] at h1 h2 h3 h4
  have ht := (congrArg Score.score (Option.some.inj h1)).symm
  have hd := (congrArg Score.score (Option.some.inj h2)).symm
  have hs := (congrArg Score.score (Option.some.inj h3)).symm
  have hi := (congrArg Score.score (Option.some.inj h4)).symm
  simp only at ht hd hs hi
  have htotal : (rankOf asciiToLowerCase ['a'] ['a'] ['a']
      { title := some ['a'], description := some ['a'] }).rank.totalScore
      = .num (5742089524897383 / 1125899906842624) := by
    rw [h5, totalScore_eq_ordered, ht, hd, hs, hi]
    decide!
  have hsum : summedTotalScore (.num 1) (.num 1) (.num 1) (.num 1)
      = .num (2871044762448691 / 562949953421312) := by
    decide!
  have hr : rankedResults asciiToLowerCase
      [("a".toList, { type := some "object".toList,
                      properties := [("a".toList, { title := some "a".toList,
                                                    description := some "a".toList })] })]
      "a".toList
      = some [rankOf asciiToLowerCase ['a'] ['a'] ['a']
          { title := some ['a'], description := some ['a'] }] :=
    rankedResults_eq_map _ _ _
  refine ⟨_, hr, ht, hd, hs, hi, htotal, ?_, ?_⟩
  · rw [ht, hd, hs, hi]
    exact hsum
  · rw [htotal, ht, hd, hs, hi, hsum]
    decide!

/-! ## Rounding to the nearest double -/

/-- The value `roundHalfEven n d` is within one half of `n / d`, and it is even
when it is exactly one half away. -/
theorem roundHalfEven_spec (n d : Nat) (hd : 0 < d) :
    2 * (JSNumber.roundHalfEven n d * d) ≤ 2 * n + d ∧
    2 * n ≤ 2 * (JSNumber.roundHalfEven n d * d) + d ∧
    ((2 * (JSNumber.roundHalfEven n d * d) = 2 * n + d ∨
      2 * n = 2 * (JSNumber.roundHalfEven n d * d) + d) →
        JSNumber.roundHalfEven n d % 2 = 0) := by
  have h1 := Nat.div_add_mod n d
  have h2 := Nat.mod_lt n hd
  have h3 : (n / d + 1) * d = d * (n / d) + d := by ring
  have h4 : n / d * d = d * (n / d) := Nat.mul_comm _ _
  unfold JSNumber.roundHalfEven
  simp only
  split_ifs with c1 c2 c3
  · rw [h4]
    refine ⟨by omega, by omega, fun h => ?_⟩
    omega
  · rw [h3]
    refine ⟨by omega, by omega, fun h => ?_⟩
    omega
  · rw [h4]
    exact ⟨by omega, by omega, fun _ => c3⟩
  · rw [h3]
    refine ⟨by omega, by omega, fun _ => ?_⟩
    omega

theorem bitLength_zero (fuel : Nat) : JSNumber.bitLength fuel 0 = 0 := by
  cases fuel <;> simp [JSNumber.bitLength]

/-- With fuel `n` or more, `bitLength` is the number of binary digits of `n`. -/
theorem bitLength_spec (fuel n : Nat) (h : n ≤ fuel) :
    n < 2 ^ JSNumber.bitLength fuel n ∧
    (0 < n → 2 ^ (JSNumber.bitLength fuel n - 1) ≤ n) := by
  induction fuel generalizing n with
  | zero =>
    obtain rfl : n = 0 := by omega
    simp [JSNumber.bitLength]
  | succ fuel ih =>
    rw [JSNumber.bitLength]
    by_cases hn : n = 0
    · subst hn
      simp
    · rw [if_neg hn]
      obtain ⟨hlt, hge⟩ := ih (n / 2) (by omega)
      refine ⟨?_, fun _ => ?_⟩
      · rw [pow_succ]
        omega
      · rw [Nat.add_sub_cancel]
        by_cases hhalf : n / 2 = 0
        · rw [hhalf, bitLength_zero]
          simp
          omega
        · have hb : 0 < JSNumber.bitLength fuel (n / 2) := by
            by_contra hcon
            have h0 : JSNumber.bitLength fuel (n / 2) = 0 := by omega
            rw [h0] at hlt
            omega
          have hpow := hge (by omega)
          obtain ⟨b, hb'⟩ : ∃ b, JSNumber.bitLength fuel (n / 2) = b + 1 :=
            ⟨JSNumber.bitLength fuel (n / 2) - 1, by omega⟩
          rw [hb'] at hpow ⊢
          rw [Nat.add_sub_cancel] at hpow
          rw [pow_succ]
          omega

theorem two_zpow_eq_div (k : Int) :
    (2 : ℚ) ^ k = ((2 ^ k.toNat : Nat) : ℚ) / ((2 ^ (-k).toNat : Nat) : ℚ) := by
  rcases le_total 0 k with h | h
  · have h1 : (-k).toNat = 0 := Int.toNat_eq_zero.mpr (by omega)
    have h2 : ((k.toNat : Int)) = k := Int.toNat_of_nonneg h
    rw [h1]
    simp only [pow_zero, Nat.cast_one, div_one, Nat.cast_pow, Nat.cast_ofNat]
    rw [← zpow_natCast, h2]
  · have h1 : k.toNat = 0 := Int.toNat_eq_zero.mpr h
    have h2 : (((-k).toNat : Int)) = -k := Int.toNat_of_nonneg (by omega)
    rw [h1]
    simp only [pow_zero, Nat.cast_one, one_div, Nat.cast_pow, Nat.cast_ofNat]
    rw [← zpow_natCast, h2, zpow_neg, inv_inv]

theorem two_pow_cast_pos (j : Nat) : (0 : ℚ) < ((2 ^ j : Nat) : ℚ) := by
  have : 0 < 2 ^ j := Nat.pow_pos (by decide : 0 < 2)
  exact_mod_cast this

/-- The exponent `binaryExponent n d` brackets `n / d` between two powers
of 2. -/
theorem binaryExponent_spec (n d : Nat) (hn : 0 < n) (hd : 0 < d) :
    (d : ℚ) * 2 ^ JSNumber.binaryExponent n d ≤ n ∧
    (n : ℚ) < d * 2 ^ (JSNumber.binaryExponent n d + 1) := by
  obtain ⟨hn1, hn2⟩ := bitLength_spec n n (le_refl _)
  obtain ⟨hd1, hd2⟩ := bitLength_spec d d (le_refl _)
  have hn2 := hn2 hn
  have hd2 := hd2 hd
  have hbn : 0 < JSNumber.bitLength n n := by
    by_contra hcon
    have h0 : JSNumber.bitLength n n = 0 := by omega
    rw [h0] at hn1
    omega
  have hbd : 0 < JSNumber.bitLength d d := by
    by_contra hcon
    have h0 : JSNumber.bitLength d d = 0 := by omega
    rw [h0] at hd1
    omega
  have hdq : (0 : ℚ) < d := by exact_mod_cast hd
  have h2 : (0 : ℚ) < 2 := by norm_num
  -- the bounds on `n` and `d` as powers with integer exponents
  have qn1 : (n : ℚ) < 2 ^ ((JSNumber.bitLength n n : Nat) : Int) := by
    rw [zpow_natCast]
    exact_mod_cast hn1
  have qn2 : (2 : ℚ) ^ (((JSNumber.bitLength n n : Nat) : Int) - 1) ≤ n := by
    have : (((JSNumber.bitLength n n : Nat) : Int) - 1)
        = ((JSNumber.bitLength n n - 1 : Nat) : Int) := by omega
    rw [this, zpow_natCast]
    exact_mod_cast hn2
  have qd1 : (d : ℚ) < 2 ^ ((JSNumber.bitLength d d : Nat) : Int) := by
    rw [zpow_natCast]
    exact_mod_cast hd1
  have qd2 : (2 : ℚ) ^ (((JSNumber.bitLength d d : Nat) : Int) - 1) ≤ d := by
    have : (((JSNumber.bitLength d d : Nat) : Int) - 1)
        = ((JSNumber.bitLength d d - 1 : Nat) : Int) := by omega
    rw [this, zpow_natCast]
    exact_mod_cast hd2
  generalize hbn' : ((JSNumber.bitLength n n : Nat) : Int) = bn at qn1 qn2
  generalize hbd' : ((JSNumber.bitLength d d : Nat) : Int) = bd at qd1 qd2
  have hupper : (n : ℚ) < d * 2 ^ (bn - bd + 1) := by
    have e1 : (2 : ℚ) ^ bn = 2 ^ (bd - 1) * 2 ^ (bn - bd + 1) := by
      rw [← zpow_add₀ (by norm_num : (2 : ℚ) ≠ 0)]
      congr 1
      omega
    calc (n : ℚ) < 2 ^ bn := qn1
      _ = 2 ^ (bd - 1) * 2 ^ (bn - bd + 1) := e1
      _ ≤ d * 2 ^ (bn - bd + 1) :=
        mul_le_mul_of_nonneg_right qd2 (le_of_lt (zpow_pos h2 _))
  have hlower : (d : ℚ) * 2 ^ (bn - bd - 1) ≤ n := by
    have e1 : (2 : ℚ) ^ (bn - 1) = 2 ^ bd * 2 ^ (bn - bd - 1) := by
      rw [← zpow_add₀ (by norm_num : (2 : ℚ) ≠ 0)]
      congr 1
      omega
    calc (d : ℚ) * 2 ^ (bn - bd - 1) ≤ 2 ^ bd * 2 ^ (bn - bd - 1) :=
        mul_le_mul_of_nonneg_right (le_of_lt qd1) (le_of_lt (zpow_pos h2 _))
      _ = 2 ^ (bn - 1) := e1.symm
      _ ≤ n := qn2
  have htest : (d * 2 ^ (bn - bd).toNat ≤ n * 2 ^ (-(bn - bd)).toNat)
      ↔ (d : ℚ) * 2 ^ (bn - bd) ≤ n := by
    rw [two_zpow_eq_div (bn - bd), ← mul_div_assoc, div_le_iff₀ (two_pow_cast_pos _)]
    exact_mod_cast Iff.rfl
  unfold JSNumber.binaryExponent
  simp only [hbn', hbd']
  split_ifs with hc
  · exact ⟨htest.mp hc, hupper⟩
  · refine ⟨hlower, ?_⟩
    have := lt_of_not_le (fun h => hc (htest.mpr h))
    simpa using this

/-- For a positive rational `q`, `roundDouble q` is `m * 2 ^ k` for the
multiple of `2 ^ k` nearest to `q`, the even multiple on a tie, where `2 ^ k`
is the spacing of the doubles around `q`; it is `Infinity` when that multiple
reaches `2 ^ 1024`. -/
theorem roundDouble_pos (q : ℚ) (hq : 0 < q) :
    ∃ (m : Nat) (k : Int),
      k = max (JSNumber.binaryExponent q.num.natAbs q.den) (-1022) - 52 ∧
      JSNumber.roundDouble q
        = (if 2 ^ 1024 ≤ m * 2 ^ k.toNat then .infinity else .num ((m : ℚ) * 2 ^ k)) ∧
      |(m : ℚ) * 2 ^ k - q| ≤ 2 ^ k / 2 ∧
      (|(m : ℚ) * 2 ^ k - q| = 2 ^ k / 2 → m % 2 = 0) := by
  have hq0 : q ≠ 0 := ne_of_gt hq
  have hnum : 0 < q.num := Rat.num_pos.mpr hq
  have hden : 0 < q.den := q.den_pos
  have hqdiv : q = (q.num.natAbs : ℚ) / (q.den : ℚ) := by
    have hcast : ((q.num.natAbs : Int)) = q.num := Int.natAbs_of_nonneg (le_of_lt hnum)
    have h1 : ((q.num.natAbs : ℚ)) = (q.num : ℚ) := by rw [← Int.cast_natCast, hcast]
    rw [h1]
    exact (Rat.num_div_den q).symm
  generalize hn : q.num.natAbs = n at hqdiv
  generalize hd : q.den = d at hqdiv hden
  generalize hk : max (JSNumber.binaryExponent n d) (-1022) - 52 = k
  have hA := two_pow_cast_pos k.toNat
  have hB := two_pow_cast_pos (-k).toNat
  have hdq : (0 : ℚ) < (d : ℚ) := by exact_mod_cast hden
  have hD : 0 < d * 2 ^ k.toNat := Nat.mul_pos hden (Nat.pow_pos (by decide))
  obtain ⟨s1, s2, s3⟩ := roundHalfEven_spec (n * 2 ^ (-k).toNat) (d * 2 ^ k.toNat) hD
  generalize hm : JSNumber.roundHalfEven (n * 2 ^ (-k).toNat) (d * 2 ^ k.toNat) = m at s1 s2 s3
  have hval : mkRat ((m * 2 ^ k.toNat : Nat) : Int) (2 ^ (-k).toNat) = (m : ℚ) * 2 ^ k := by
    rw [Rat.mkRat_eq_div, two_zpow_eq_div k]
    push_cast
    ring
  refine ⟨m, k, rfl, ?_, ?_, ?_⟩
  · unfold JSNumber.roundDouble
    rw [if_neg hq0]
    simp only [hn, hd, hk, hm, hq, if_true, hval]
  all_goals
    have q1 : (2 : ℚ) * ((m : ℚ) * ((d : ℚ) * ((2 ^ k.toNat : Nat) : ℚ)))
        ≤ 2 * ((n : ℚ) * ((2 ^ (-k).toNat : Nat) : ℚ)) + (d : ℚ) * ((2 ^ k.toNat : Nat) : ℚ) := by
      exact_mod_cast s1
    have q2 : (2 : ℚ) * ((n : ℚ) * ((2 ^ (-k).toNat : Nat) : ℚ))
        ≤ 2 * ((m : ℚ) * ((d : ℚ) * ((2 ^ k.toNat : Nat) : ℚ)))
          + (d : ℚ) * ((2 ^ k.toNat : Nat) : ℚ) := by
      exact_mod_cast s2
    rw [hqdiv, two_zpow_eq_div k]
    obtain ⟨a, ha⟩ : ∃ a : ℚ, a = ((2 ^ k.toNat : Nat) : ℚ) := ⟨_, rfl⟩
    obtain ⟨b, hb⟩ : ∃ b : ℚ, b = ((2 ^ (-k).toNat : Nat) : ℚ) := ⟨_, rfl⟩
    rw [← ha] at hA q1 q2
    rw [← hb] at hB q1 q2
    rw [← ha, ← hb]
    have hbd : 0 < b * (d : ℚ) := mul_pos hB hdq
    have key : (m : ℚ) * (a / b) - (n : ℚ) / (d : ℚ)
        = ((m : ℚ) * ((d : ℚ) * a) - (n : ℚ) * b) / (b * (d : ℚ)) := by
      field_simp
      ring
    have key2 : a / b / 2 = ((d : ℚ) * a / 2) / (b * (d : ℚ)) := by
      field_simp
      ring
    rw [key, key2, abs_div, abs_of_pos hbd]
  · rw [div_le_div_iff_of_pos_right hbd, abs_le]
    constructor <;> linarith
  · intro htie
    rw [div_left_inj' (ne_of_gt hbd)] at htie
    apply s3
    rcases abs_cases ((m : ℚ) * ((d : ℚ) * a) - (n : ℚ) * b) with ⟨h, _⟩ | ⟨h, _⟩
    · left
      have e : (2 : ℚ) * ((m : ℚ) * ((d : ℚ) * a)) = 2 * ((n : ℚ) * b) + (d : ℚ) * a := by
        rw [h] at htie
        linarith
      rw [ha, hb] at e
      exact_mod_cast e
    · right
      have e : (2 : ℚ) * ((n : ℚ) * b) = 2 * ((m : ℚ) * ((d : ℚ) * a)) + (d : ℚ) * a := by
        rw [h] at htie
        linarith
      rw [ha, hb] at e
      exact_mod_cast e

/-- Rounding is symmetric: the double nearest to `-q` is the opposite of the
double nearest to `q`. -/
theorem roundDouble_neg (q : ℚ) (hq : 0 < q) :
    JSNumber.roundDouble (-q)
      = (match JSNumber.roundDouble q with
        | .infinity => .negInfinity
        | .num v => .num (-v)
        | x => x) := by
  have hq0 : q ≠ 0 := ne_of_gt hq
  have hnq0 : -q ≠ 0 := neg_ne_zero.mpr hq0
  have hnq : ¬ (0 < -q) := by linarith
  unfold JSNumber.roundDouble
  rw [if_neg hq0, if_neg hnq0]
  simp only [Rat.neg_num, Int.natAbs_neg, Rat.neg_den, hq, hnq, if_true, if_false]
  split_ifs <;> rfl

end SearchSettingsPanel
